import Mathlib

/-!
mspvideo: frame buffer, rasterizer and NTSC timing.

A shallow embedding of `mspvideo.c` (MSP430 composite video library).

Conventions of the embedding.

* `int` is the 16-bit signed integer of the MSP430. The drawing routines are
  embedded over `Int`; for the coordinates the theorems range over no
  intermediate value leaves the 16-bit range. The one loop whose control
  depends on the machine representation (the bit loop of `drawPixel`) is
  embedded on 16-bit words.
* `char image[48][8]` is embedded as the memory seen through `image`: a map
  from the byte offset relative to `&image[0][0]` to the byte stored there
  (`char` is unsigned on this target, a byte is a number below 256). The array
  itself is the offsets `0 .. 383`, and `image[r][c]` is offset `8 * r + c`.
  An access with an index outside the array is an access to the memory around
  it, so out-of-array reads and writes can be stated.
* `/` and `%` of C truncate towards zero: `Int.tdiv`, `Int.tmod`.
* A C loop is embedded with a fuel argument bounding the number of executions
  of its body; running out of fuel is `none`.
* The font tables `chars8x8` and `chars4x6` (fonts/font8x8.h, fonts/font4x6.h)
  are parameters of the text routines. A string is the list of its character
  codes up to the terminating zero, and a text routine is embedded as the list
  of byte accesses it makes, applied to the memory in order.
-/

namespace Mspvideo

/-! ## Constants -/

/-- Horizontal line width (`#define HWIDTH 1018`). -/
def HWIDTH : Nat := 1018
/-- Horizontal sync pulse width (`#define HSYNC 75`). -/
def HSYNC : Nat := 75
/-- Vertical sync pulse width (`#define VSYNC 942`). -/
def VSYNC : Nat := 942
/-- Luminance output delay (`#define PICTUREDELAY 175`). -/
def PICTUREDELAY : Nat := 175
/-- Capture/compare interrupt enable bit of a `TAxCCTLn` register (msp430.h). -/
def CCIE : Nat := 16

/-! ## Frame buffer -/

/-- Memory seen through `char image[48][8]`: byte offset from `&image[0][0]`
to the byte stored there. -/
abbrev Image := Int → Nat

/-- Offset of `image[r][c]` from `&image[0][0]`. -/
def cell (r c : Int) : Int := 8 * r + c

/-- An offset that lies inside the 48 * 8 = 384 bytes of `image`. -/
def inImage (off : Int) : Prop := 0 ≤ off ∧ off < 384

instance (off : Int) : Decidable (inImage off) := by
  unfold inImage; exact inferInstance

/-- The buffer after `clearScreen ()`: `memset(image, 0, sizeof(image))` writes
0 to the 384 bytes of the array and to nothing else. -/
def clearScreen (img : Image) : Image :=
  fun off => if 0 ≤ off ∧ off < 384 then 0 else img off

/-- The all-zero memory, used as the cleared buffer in examples. -/
def blank : Image := fun _ => 0

/-- Store `v` into the byte at offset `off` (a `char` store keeps 8 bits). -/
def store (img : Image) (off : Int) (v : Nat) : Image :=
  fun o => if o = off then v % 256 else img o

/-- The 16-bit word that holds the `int` value `n`. -/
def toWord (n : Int) : Nat := (n % 65536).toNat

/-- The loop `while (bitOffset) { byte *= 2; bitOffset--; }` of `drawPixel` on
16-bit words: `w` is the word holding `bitOffset`; the loop tests it against
zero and decrements it, doubling `byte` (kept to 16 bits) each time. -/
def bitLoop : Nat → Nat → Nat
  | 0, byte => byte
  | w + 1, byte => bitLoop w (byte * 2 % 65536)

/-- Embedding of `int getPixel (int x, int y)`. The byte read is promoted to
`int` as its unsigned value (plain `char` is unsigned in msp430-gcc), so the
mask `1 << 8` never meets a set bit. -/
def getPixel (img : Image) (x y : Int) : Int :=
  if x < 63 ∧ y < 48 then
    let bit := 8 - x.tmod 8
    if (1 <<< bit.toNat) &&& img (cell y (x.tdiv 8)) ≠ 0 then 1 else 0
  else 0

/-- Embedding of `void drawPixel (int x, int y, int c)`. -/
def drawPixel (img : Image) (x y c : Int) : Image :=
  if x < 63 ∧ y < 48 then
    let bitOffset := x.tmod 8
    let byte := bitLoop (toWord bitOffset) 1
    if c > 0 then
      store img (cell y (x.tdiv 8)) (img (cell y (x.tdiv 8)) ||| byte)
    else
      store img (cell y (x.tdiv 8)) (img (cell y (x.tdiv 8)) ^^^ byte)
  else img

/-- The stored bit of pixel `(x, y)`: bit `x mod 8` of byte `image[y][x div 8]`,
the bit that `drawPixel (x, y, 1)` sets. -/
def pixelBit (img : Image) (x y : Int) : Bool :=
  (img (cell y (x.tdiv 8))).testBit (x.tmod 8).toNat

/-- Pixel `(x, y)` of the 64 x 48 buffer is lit: the coordinates are inside the
buffer and the stored bit is 1. -/
def lit (img : Image) (x y : Int) : Prop :=
  0 ≤ x ∧ x < 64 ∧ 0 ≤ y ∧ y < 48 ∧ pixelBit img x y = true

instance (img : Image) (x y : Int) : Decidable (lit img x y) := by
  unfold lit; exact inferInstance

/-! ## Rasterizer -/

/-- The function `abs` of stdlib.h on `int`. -/
def c_abs (n : Int) : Int := if n < 0 then -n else n

/-- Apply `drawPixel (x, y, c)` to the points of `pts`, first to last. -/
def drawPixels (img : Image) (pts : List (Int × Int)) (c : Int) : Image :=
  pts.foldl (fun im p => drawPixel im p.1 p.2 c) img

/-- The `while` loop of `drawLine`, from the current point `(x1, y1)` with the
current `error`; `x2 y2 dx dy sx sy` do not change in the loop. The result is
the list of points passed to `drawPixel`, in call order. `fuel` bounds the
number of executions of the loop body. -/
def drawLineLoop (x2 y2 dx dy sx sy : Int) :
    Nat → Int → Int → Int → Option (List (Int × Int))
  | 0, x1, y1, _ => if x1 = x2 ∧ y1 = y2 then some [] else none
  | fuel + 1, x1, y1, error =>
    if x1 = x2 ∧ y1 = y2 then some []
    else
      let error2 := error * 2
      let errorA := if error2 > -dy then error - dy else error
      let x1A := if error2 > -dy then x1 + sx else x1
      let errorB := if error2 < dx then errorA + dx else errorA
      let y1B := if error2 < dx then y1 + sy else y1
      (drawLineLoop x2 y2 dx dy sx sy fuel x1A y1B errorB).map (fun l => (x1, y1) :: l)

/-- The calls of `drawPixel` made by `drawLine (x1, y1, x2, y2, c)`, in order:
the set-up of `dx dy error sx sy` followed by the loop. -/
def drawLineCalls (fuel : Nat) (x1 y1 x2 y2 : Int) : Option (List (Int × Int)) :=
  let dx := c_abs (x2 - x1)
  let dy := c_abs (y2 - y1)
  let error := dx - dy
  let sx := if x1 < x2 then 1 else -1
  let sy := if y1 < y2 then 1 else -1
  drawLineLoop x2 y2 dx dy sx sy fuel x1 y1 error

/-- Embedding of `void drawLine (int x1, int y1, int x2, int y2, int c)`. -/
def drawLine (fuel : Nat) (img : Image) (x1 y1 x2 y2 c : Int) : Option Image :=
  (drawLineCalls fuel x1 y1 x2 y2).map (fun pts => drawPixels img pts c)

/-- The `while (x0 < y0)` loop of `drawCircle` around the centre `(x, y)`. The
result is the list of points passed to `drawPixel`, in call order. -/
def drawCircleLoop (x y : Int) :
    Nat → Int → Int → Int → Int → Int → Option (List (Int × Int))
  | 0, _, _, _, x0, y0 => if x0 < y0 then none else some []
  | fuel + 1, err, ddfx, ddfy, x0, y0 =>
    if x0 < y0 then
      let y0A := if err ≥ 0 then y0 - 1 else y0
      let ddfyA := if err ≥ 0 then ddfy + 2 else ddfy
      let errA := if err ≥ 0 then err + ddfyA else err
      let x0B := x0 + 1
      let ddfxB := ddfx + 2
      let errB := errA + ddfxB
      (drawCircleLoop x y fuel errB ddfxB ddfyA x0B y0A).map (fun l =>
        [(x + x0B, y + y0A), (x - x0B, y - y0A), (x + x0B, y - y0A), (x - x0B, y + y0A),
         (x + y0A, y + x0B), (x - y0A, y - x0B), (x + y0A, y - x0B), (x - y0A, y + x0B)] ++ l)
    else some []

/-- The calls of `drawPixel` made by `drawCircle (x, y, r, c)`, in order: the
four extrema, then the loop. -/
def drawCircleCalls (fuel : Nat) (x y r : Int) : Option (List (Int × Int)) :=
  (drawCircleLoop x y fuel (1 - r) 1 (-2 * r) 0 r).map (fun l =>
    [(x, y + r), (x, y - r), (x + r, y), (x - r, y)] ++ l)

/-- Embedding of `void drawCircle (int x, int y, int r, int c)`. -/
def drawCircle (fuel : Nat) (img : Image) (x y r c : Int) : Option Image :=
  (drawCircleCalls fuel x y r).map (fun pts => drawPixels img pts c)

/-- Embedding of `void drawRect (int x, int y, int w, int h, int c)`: four
calls of `drawLine`, each given `fuel`. -/
def drawRect (fuel : Nat) (img : Image) (x y w h c : Int) : Option Image :=
  (drawLine fuel img x y (x + w) y c).bind fun img1 =>
  (drawLine fuel img1 (x + w) y (x + w) (y + h) c).bind fun img2 =>
  (drawLine fuel img2 (x + w) (y + h) x (y + h) c).bind fun img3 =>
  drawLine fuel img3 x (y + h) x y c

/-! ## Text -/

/-- One byte access of a text routine: the row and column indices used on
`image` and the operand (the byte assigned, or the mask or-ed in). -/
structure ByteOp where
  row : Int
  col : Int
  val : Nat
  deriving DecidableEq, Repr

/-- Carry out the assignments `image[row][col] = val` of `ws`, first to last. -/
def assignAll (img : Image) (ws : List ByteOp) : Image :=
  ws.foldl (fun im w => store im (cell w.row w.col) w.val) img

/-- Carry out the updates `image[row][col] |= val` of `ws`, first to last. -/
def orAll (img : Image) (ws : List ByteOp) : Image :=
  ws.foldl (fun im w => store im (cell w.row w.col) (im (cell w.row w.col) ||| w.val)) img

/-- The `while (*letter && c < 8)` loop of `printStringLarge`, as the list of
assignments `image[y + i][c] = chars8x8[*letter-1][i]` it makes, in order. The
string is the list of its character codes, the end of the list standing for the
terminating zero; `c` is the current byte column. The font table `chars8x8`
(fonts/font8x8.h) is a parameter: glyph index and glyph row to byte. -/
def printStringLargeWrites (chars8x8 : Nat → Nat → Nat) (y : Int) :
    List Nat → Int → List ByteOp
  | [], _ => []
  | ch :: rest, c =>
    if ch ≠ 0 ∧ c < 8 then
      (List.range 8).map
          (fun (i : Nat) =>
            ({ row := y + (i : Int), col := c, val := chars8x8 (ch - 1) i } : ByteOp))
        ++ printStringLargeWrites chars8x8 y rest (c + 1)
    else []

/-- Embedding of `void printStringLarge (int x, int y, char s[])`. -/
def printStringLarge (chars8x8 : Nat → Nat → Nat) (img : Image) (x y : Int) (s : List Nat) :
    Image :=
  assignAll img (printStringLargeWrites chars8x8 y s (x.tdiv 8))

/-- The `while (*letter && c < 16)` loop of `printStringSmall`, as the list of
updates `image[y + i][c] |= ...` it makes, in order; `c` and `l` are the
variables of the source. `(l & 1) == 0` is `l % 2 = 0` (the low bit of the
two's complement word). The font table `chars4x6` (fonts/font4x6.h) is a
parameter. -/
def printStringSmallWrites (chars4x6 : Nat → Nat → Nat) (y : Int) :
    List Nat → Int → Int → List ByteOp
  | [], _, _ => []
  | ch :: rest, c, l =>
    if ch ≠ 0 ∧ c < 16 then
      if l % 2 = 0 ∨ l = 0 then
        (List.range 6).map
            (fun (i : Nat) =>
              ({ row := y + (i : Int), col := c, val := chars4x6 (ch - 1) i } : ByteOp))
          ++ printStringSmallWrites chars4x6 y rest c (l + 1)
      else
        (List.range 6).map
            (fun (i : Nat) =>
              ({ row := y + (i : Int), col := c, val := chars4x6 (ch - 1) i * 16 } : ByteOp))
          ++ printStringSmallWrites chars4x6 y rest (c + 1) (l + 1)
    else []

/-- Embedding of `void printStringSmall (int x, int y, char s[])`. -/
def printStringSmall (chars4x6 : Nat → Nat → Nat) (img : Image) (x y : Int) (s : List Nat) :
    Image :=
  orAll img (printStringSmallWrites chars4x6 y s (x.tdiv 4) (x.tdiv 4))

/-! ## Timing state machine and line serializer -/

/-- The part of the machine state the two interrupt handlers work on: the
global `line`, the registers `TA1CCTL2` (interrupt enable of the serializer
trigger) and `TA1CCR1` (sync pulse width), and whether the LPM0 bits are set
in the status register restored on exit of the handler. -/
structure Timer where
  line : Nat
  TA1CCTL2 : Nat
  TA1CCR1 : Nat
  lpm0 : Bool
  deriving DecidableEq, Repr

/-- State after `initialize ()`: `line = 0`, `TA1CCR1 = HSYNC`,
`TA1CCTL2 = 0`, LPM0 not requested. -/
def reset : Timer := { line := 0, TA1CCTL2 := 0, TA1CCR1 := HSYNC, lpm0 := false }

/-- Embedding of the horizontal-tick handler `TA1CCR0_ISR`; `line` is an
`unsigned int` (16 bits). -/
def TA1CCR0_ISR (s : Timer) : Timer :=
  let line := (s.line + 1) % 65536
  if line = 25 then { s with line := line, lpm0 := true }
  else if line = 29 then { s with line := line, TA1CCTL2 := CCIE }
  else if line = 221 then { s with line := line, TA1CCTL2 := 0, lpm0 := false }
  else if line = 247 then { s with line := line, TA1CCR1 := VSYNC }
  else if line = 249 then { s with line := line, TA1CCR1 := HSYNC }
  else if line = 261 then { s with line := 0 }
  else { s with line := line }

/-- The state after `n` invocations of the horizontal-tick handler. -/
def ticks : Nat → Timer → Timer
  | 0, s => s
  | n + 1, s => TA1CCR0_ISR (ticks n s)

/-- The serializer trigger is enabled: the CCIE bit of `TA1CCTL2` is set. -/
def serializerEnabled (s : Timer) : Bool := s.TA1CCTL2 &&& CCIE != 0

/-- The row index of `TA1CCR1_ISR`: `unsigned char y = ((line-29) / 4)`, in
16-bit unsigned arithmetic, truncated to 8 bits. -/
def rowIndex (line : Nat) : Nat := (line + (65536 - 29)) % 65536 / 4 % 256

/-- Embedding of the serializer handler `TA1CCR1_ISR`: the eight bytes written
to `UCA0TXBUF`, in order. -/
def TA1CCR1_ISR (s : Timer) (img : Image) : List Nat :=
  [img (cell (rowIndex s.line) 0), img (cell (rowIndex s.line) 1),
   img (cell (rowIndex s.line) 2), img (cell (rowIndex s.line) 3),
   img (cell (rowIndex s.line) 4), img (cell (rowIndex s.line) 5),
   img (cell (rowIndex s.line) 6), img (cell (rowIndex s.line) 7)]

/-- The states after each of the first `n` ticks from `s`, in order. -/
def frameStates (n : Nat) (s : Timer) : List Timer :=
  (List.range n).map (fun k => ticks (k + 1) s)

/-- The values of `line` over one frame of 261 ticks from `reset` at which the
serializer trigger is enabled, in order. -/
def enabledLines : List Nat :=
  ((frameStates 261 reset).filter serializerEnabled).map (fun s => s.line)

/-- The variables of the loop of `drawCircle`. -/
structure CircleVars where
  err : Int
  ddfx : Int
  ddfy : Int
  x0 : Int
  y0 : Int
  deriving DecidableEq, Repr

/-- One execution of the body of `while (x0 < y0)` of `drawCircle` on the loop
variables (the `drawPixel` calls left out). -/
def drawCircleBody (v : CircleVars) : CircleVars :=
  let y0A := if v.err ≥ 0 then v.y0 - 1 else v.y0
  let ddfyA := if v.err ≥ 0 then v.ddfy + 2 else v.ddfy
  let errA := if v.err ≥ 0 then v.err + ddfyA else v.err
  let x0B := v.x0 + 1
  let ddfxB := v.ddfx + 2
  { err := errA + ddfxB, ddfx := ddfxB, ddfy := ddfyA, x0 := x0B, y0 := y0A }

/-- The loop variables of `drawCircle (x, y, r, c)` after `n` tests of the loop
condition: the initial values, then the body applied while `x0 < y0` holds. -/
def drawCircleVars (r : Int) : Nat → CircleVars
  | 0 => { err := 1 - r, ddfx := 1, ddfy := -2 * r, x0 := 0, y0 := r }
  | n + 1 =>
    if (drawCircleVars r n).x0 < (drawCircleVars r n).y0 then drawCircleBody (drawCircleVars r n)
    else drawCircleVars r n

/-- From `p` to `q` the current point of `drawLine` moves by at most one step
in x and at most one step in y, in neither coordinate away from the endpoint
`(x2, y2)`. -/
def stepTowards (x2 y2 : Int) (p q : Int × Int) : Prop :=
  c_abs (q.1 - p.1) ≤ 1 ∧ c_abs (q.2 - p.2) ≤ 1 ∧
  c_abs (x2 - q.1) ≤ c_abs (x2 - p.1) ∧ c_abs (y2 - q.2) ≤ c_abs (y2 - p.2)

/-- A list of points is closed under the eight reflections about the centre
`(cx, cy)`: with `(cx + dx, cy + dy)` it holds the seven other points
`(cx ± dx, cy ± dy)` and `(cx ± dy, cy ± dx)`. -/
def Sym8 (cx cy : Int) (l : List (Int × Int)) : Prop :=
  ∀ dx dy, (cx + dx, cy + dy) ∈ l →
    (cx - dx, cy + dy) ∈ l ∧ (cx + dx, cy - dy) ∈ l ∧ (cx - dx, cy - dy) ∈ l ∧
    (cx + dy, cy + dx) ∈ l ∧ (cx - dy, cy + dx) ∈ l ∧
    (cx + dy, cy - dx) ∈ l ∧ (cx - dy, cy - dx) ∈ l

/-- Closed form of the handler state when the line counter is `m`, within a
frame started from `reset`. -/
def frameState (m : Nat) : Timer :=
  { line := m,
    TA1CCTL2 := if 29 ≤ m ∧ m ≤ 220 then CCIE else 0,
    TA1CCR1 := if 247 ≤ m ∧ m ≤ 248 then VSYNC else HSYNC,
    lpm0 := decide (25 ≤ m ∧ m ≤ 220) }

/-! ## Frame buffer: proofs -/

theorem bitLoop_one (k : Nat) (hk : k < 8) : bitLoop k 1 = 2 ^ k := by
  interval_cases k <;> rfl

theorem toWord_small (n : Int) (h0 : 0 ≤ n) (h8 : n < 8) : toWord n = n.toNat := by
  unfold toWord
  congr 1
  omega

theorem testBit_or_pow_mod (a k m : Nat) (hm : m < 8) :
    ((a ||| 2 ^ k) % 256).testBit m = (a.testBit m || decide (k = m)) := by
  have h256 : (256 : Nat) = 2 ^ 8 := by norm_num
  rw [h256, Nat.testBit_mod_two_pow, Nat.testBit_or, Nat.testBit_two_pow]
  simp [hm]

/-- Effect of `drawPixel (x, y, 1)` on the stored bit of a pixel `(i, j)` of the
buffer, for `(x, y)` in the drawable area `0 .. 62` by `0 .. 47`. -/
theorem pixelBit_drawPixel_on (img : Image) (x y i j : Int)
    (hx0 : 0 ≤ x) (hx : x ≤ 62) (hy0 : 0 ≤ y) (hy : y ≤ 47)
    (hi0 : 0 ≤ i) (hi : i < 64) :
    pixelBit (drawPixel img x y 1) i j = (pixelBit img i j || decide (i = x ∧ j = y)) := by
  have hxm : x.tmod 8 = x % 8 := Int.tmod_eq_emod hx0 (by decide)
  have hxd : x.tdiv 8 = x / 8 := Int.tdiv_eq_ediv hx0 (by decide)
  have him : i.tmod 8 = i % 8 := Int.tmod_eq_emod hi0 (by decide)
  have hid : i.tdiv 8 = i / 8 := Int.tdiv_eq_ediv hi0 (by decide)
  have hg : x < 63 ∧ y < 48 := ⟨by omega, by omega⟩
  have hw : toWord (x % 8) = (x % 8).toNat := toWord_small _ (by omega) (by omega)
  have hb : bitLoop (x % 8).toNat 1 = 2 ^ (x % 8).toNat := bitLoop_one _ (by omega)
  have hm8 : (i % 8).toNat < 8 := by omega
  unfold pixelBit drawPixel
  simp only [hg, and_self, if_true, hxm, hxd, him, hid, hw, hb, store, cell,
    show (1 : Int) > 0 from by decide]
  by_cases hc : 8 * j + i / 8 = 8 * y + x / 8
  · rw [if_pos hc, testBit_or_pow_mod _ _ _ hm8, hc]
    congr 1
    have hjy : j = y := by omega
    by_cases hix : i = x
    · subst hix; simp [hjy]
    · have : (x % 8).toNat ≠ (i % 8).toNat := by omega
      simp [hix, this]
  · rw [if_neg hc]
    have : ¬ (i = x ∧ j = y) := by
      rintro ⟨rfl, rfl⟩; exact hc rfl
    simp [this]

/-- Effect of a sequence of `drawPixel (·, ·, 1)` calls, all in the drawable
area, on the stored bit of a pixel of the buffer. -/
theorem pixelBit_drawPixels_on (pts : List (Int × Int)) (img : Image) (i j : Int)
    (hpts : ∀ p ∈ pts, 0 ≤ p.1 ∧ p.1 ≤ 62 ∧ 0 ≤ p.2 ∧ p.2 ≤ 47)
    (hi0 : 0 ≤ i) (hi : i < 64) :
    pixelBit (drawPixels img pts 1) i j = true ↔
      pixelBit img i j = true ∨ (i, j) ∈ pts := by
  induction pts generalizing img with
  | nil => simp [drawPixels]
  | cons p rest ih =>
    have hp := hpts p (List.mem_cons_self _ _)
    have hrest : ∀ q ∈ rest, 0 ≤ q.1 ∧ q.1 ≤ 62 ∧ 0 ≤ q.2 ∧ q.2 ≤ 47 :=
      fun q hq => hpts q (List.mem_cons_of_mem _ hq)
    have hstep : drawPixels img (p :: rest) 1 = drawPixels (drawPixel img p.1 p.2 1) rest 1 := rfl
    rw [hstep, ih _ hrest,
      pixelBit_drawPixel_on img p.1 p.2 i j hp.1 hp.2.1 hp.2.2.1 hp.2.2.2 hi0 hi]
    obtain ⟨p1, p2⟩ := p
    simp only [Bool.or_eq_true, decide_eq_true_eq, List.mem_cons, Prod.mk.injEq]
    tauto

theorem pixelBit_clearScreen (img : Image) (i j : Int)
    (hi0 : 0 ≤ i) (hi : i < 64) (hj0 : 0 ≤ j) (hj : j < 48) :
    pixelBit (clearScreen img) i j = false := by
  have hid : i.tdiv 8 = i / 8 := Int.tdiv_eq_ediv hi0 (by decide)
  unfold pixelBit clearScreen cell
  rw [hid, if_pos (by omega)]
  simp

/-- C1 (defect of `getPixel`). On the cleared buffer, `drawPixel (0, 0, 1)` sets
the stored bit of pixel `(0, 0)` (bit 0 of `image[0][0]`), and `getPixel (0, 0)`
then returns 0, not 1: it tests bit `8 - x % 8 = 8` of that byte. The round
trip does return 1 at `x = 4`, where `8 - x % 8 = x % 8`. -/
theorem getPixel_drawPixel_origin :
    pixelBit (drawPixel blank 0 0 1) 0 0 = true ∧
    getPixel (drawPixel blank 0 0 1) 0 0 = 0 ∧
    getPixel (drawPixel blank 4 0 1) 4 0 = 1 := by
  decide

/-- C2 (defect of `drawPixel`). On the cleared buffer, where the stored bit of
pixel `(0, 0)` is 0, the call `drawPixel (0, 0, 0)` leaves that bit at 1: the
"off" branch is an exclusive or, not a reset. A second call puts it back to 0. -/
theorem drawPixel_off_toggles :
    pixelBit blank 0 0 = false ∧
    pixelBit (drawPixel blank 0 0 0) 0 0 = true ∧
    drawPixel blank 0 0 0 (cell 0 0) = 1 ∧
    pixelBit (drawPixel (drawPixel blank 0 0 0) 0 0 0) 0 0 = false := by
  decide

/-- C3 (defect of the bounds check). The guard `x < 63 && y < 48` lets negative
coordinates through. `drawPixel (0, -1, 1)` writes the byte 8 below the array;
`drawPixel (-8, 1, 1)` writes `image[1][-1]`, which is the byte `image[0][7]` of
the array, and changes it from 0 to 1; `getPixel (4, -1)` reads the byte 8
below the array and returns 1 when bit 4 of that byte is set. -/
theorem negative_coordinates_pass_guard :
    ¬ inImage (cell (-1) 0) ∧ drawPixel blank 0 (-1) 1 (cell (-1) 0) = 1 ∧
    inImage (cell 0 7) ∧ cell 1 ((-8 : Int).tdiv 8) = cell 0 7 ∧
    blank (cell 0 7) = 0 ∧ drawPixel blank (-8) 1 1 (cell 0 7) = 1 ∧
    getPixel (store blank (cell (-1) 0) 16) 4 (-1) = 1 := by
  decide

/-- C14. After `clearScreen ()`, from any buffer state, `getPixel (x, y)` is 0
for every `(x, y)` with `0 ≤ x < 64`, `0 ≤ y < 48`, and every one of the 384
bytes of `image` is 0. -/
theorem clearScreen_getPixel (img : Image) (x y : Int)
    (hx0 : 0 ≤ x) (hx : x < 64) (hy0 : 0 ≤ y) (hy : y < 48) :
    getPixel (clearScreen img) x y = 0 ∧ ∀ off, inImage off → clearScreen img off = 0 := by
  constructor
  · have hxd : x.tdiv 8 = x / 8 := Int.tdiv_eq_ediv hx0 (by decide)
    have hval : clearScreen img (cell y (x.tdiv 8)) = 0 := by
      unfold clearScreen cell
      rw [hxd, if_pos (by omega)]
    unfold getPixel
    rw [hval]
    simp
  · intro off h
    unfold inImage at h
    unfold clearScreen
    rw [if_pos h]

theorem clearScreen_getPixel_witness :
    getPixel (clearScreen (fun _ => 255)) 10 5 = 0 ∧
    ∀ off, inImage off → clearScreen (fun _ => 255) off = 0 :=
  clearScreen_getPixel (fun _ => 255) 10 5 (by decide) (by decide) (by decide) (by decide)

theorem drawPixel_eq_store (img : Image) (x y c : Int)
    (hx0 : 0 ≤ x) (hx : x ≤ 62) (hy : y ≤ 47) :
    drawPixel img x y c = store img (cell y (x.tdiv 8))
      (if c > 0 then img (cell y (x.tdiv 8)) ||| 2 ^ (x.tmod 8).toNat
       else img (cell y (x.tdiv 8)) ^^^ 2 ^ (x.tmod 8).toNat) := by
  have hxm : x.tmod 8 = x % 8 := Int.tmod_eq_emod hx0 (by decide)
  have hg : x < 63 ∧ y < 48 := ⟨by omega, by omega⟩
  have hw : toWord (x % 8) = (x % 8).toNat := toWord_small _ (by omega) (by omega)
  have hb : bitLoop (x % 8).toNat 1 = 2 ^ (x % 8).toNat := bitLoop_one _ (by omega)
  unfold drawPixel
  simp only [hg, and_self, if_true, hxm, hw, hb]
  split_ifs <;> rfl

/-- C17. For a buffer of bytes and `0 ≤ x ≤ 62`, `0 ≤ y ≤ 47`, the call
`drawPixel (x, y, c)` leaves every other byte as it is and, in the byte
`image[y][x div 8]`, every bit other than bit `x mod 8`; that bit becomes 1
when `c > 0` and is inverted when `c ≤ 0`; two calls of `drawPixel (x, y, 0)`
restore the buffer. -/
theorem drawPixel_effect (img : Image) (x y c : Int) (hb : ∀ off, img off < 256)
    (hx0 : 0 ≤ x) (hx : x ≤ 62) (_hy0 : 0 ≤ y) (hy : y ≤ 47) :
    (∀ off, off ≠ cell y (x.tdiv 8) → drawPixel img x y c off = img off) ∧
    (∀ m, m ≠ (x.tmod 8).toNat →
      (drawPixel img x y c (cell y (x.tdiv 8))).testBit m
        = (img (cell y (x.tdiv 8))).testBit m) ∧
    (c > 0 → (drawPixel img x y c (cell y (x.tdiv 8))).testBit (x.tmod 8).toNat = true) ∧
    (c ≤ 0 → (drawPixel img x y c (cell y (x.tdiv 8))).testBit (x.tmod 8).toNat
        = !(img (cell y (x.tdiv 8))).testBit (x.tmod 8).toNat) ∧
    drawPixel (drawPixel img x y 0) x y 0 = img := by
  have hxm : x.tmod 8 = x % 8 := Int.tmod_eq_emod hx0 (by decide)
  have hk : (x.tmod 8).toNat < 8 := by rw [hxm]; omega
  have hv := hb (cell y (x.tdiv 8))
  have hp : 2 ^ (x.tmod 8).toNat < 2 ^ 8 := Nat.pow_lt_pow_right (by decide) hk
  have hor : (img (cell y (x.tdiv 8)) ||| 2 ^ (x.tmod 8).toNat) % 256
      = img (cell y (x.tdiv 8)) ||| 2 ^ (x.tmod 8).toNat :=
    Nat.mod_eq_of_lt (Nat.or_lt_two_pow hv hp)
  have hxor : (img (cell y (x.tdiv 8)) ^^^ 2 ^ (x.tmod 8).toNat) % 256
      = img (cell y (x.tdiv 8)) ^^^ 2 ^ (x.tmod 8).toNat :=
    Nat.mod_eq_of_lt (Nat.xor_lt_two_pow hv hp)
  rw [drawPixel_eq_store img x y c hx0 hx hy]
  refine ⟨?_, ?_, ?_, ?_, ?_⟩
  · intro off hoff
    simp [store, hoff]
  · intro m hm
    by_cases hc : c > 0
    · simp only [store, if_true, hc, hor, Nat.testBit_or, Nat.testBit_two_pow]
      simp [Ne.symm hm]
    · simp only [store, if_true, hc, if_false, hxor, Nat.testBit_xor, Nat.testBit_two_pow]
      simp [Ne.symm hm]
  · intro hc
    simp only [store, if_true, hc, hor, Nat.testBit_or, Nat.testBit_two_pow]
    simp
  · intro hc
    have hc2 : ¬ c > 0 := by omega
    simp only [store, if_true, hc2, if_false, hxor, Nat.testBit_xor, Nat.testBit_two_pow]
    simp
  · rw [drawPixel_eq_store _ x y 0 hx0 hx hy, drawPixel_eq_store img x y 0 hx0 hx hy]
    funext o
    by_cases ho : o = cell y (x.tdiv 8)
    · subst ho
      simp only [store, if_true, show ¬ ((0 : Int) > 0) from by decide, if_false, hxor]
      rw [Nat.xor_assoc, Nat.xor_self, Nat.xor_zero]
      exact Nat.mod_eq_of_lt hv
    · simp [store, ho]

theorem drawPixel_effect_witness :
    (∀ off, off ≠ cell 5 ((10 : Int).tdiv 8) → drawPixel blank 10 5 0 off = blank off) ∧
    (∀ m, m ≠ ((10 : Int).tmod 8).toNat →
      (drawPixel blank 10 5 0 (cell 5 ((10 : Int).tdiv 8))).testBit m
        = (blank (cell 5 ((10 : Int).tdiv 8))).testBit m) ∧
    ((0 : Int) > 0 →
      (drawPixel blank 10 5 0 (cell 5 ((10 : Int).tdiv 8))).testBit ((10 : Int).tmod 8).toNat
        = true) ∧
    ((0 : Int) ≤ 0 →
      (drawPixel blank 10 5 0 (cell 5 ((10 : Int).tdiv 8))).testBit ((10 : Int).tmod 8).toNat
        = !(blank (cell 5 ((10 : Int).tdiv 8))).testBit ((10 : Int).tmod 8).toNat) ∧
    drawPixel (drawPixel blank 10 5 0) 10 5 0 = blank :=
  drawPixel_effect blank 10 5 0 (fun _ => (by decide : (0 : Nat) < 256)) (by decide) (by decide)
    (by decide) (by decide)

/-- C18 (defect of the guard `x < 63`). For `x = 63` the guard of `drawPixel`
fails and the call leaves the buffer as it is, for every row and colour:
`drawPixel (63, 0, 1)` on the cleared buffer leaves it all-zero and the stored
bit of pixel `(63, 0)` at 0. -/
theorem drawPixel_column_63 (img : Image) (y c : Int) : drawPixel img 63 y c = img ∧
    drawPixel blank 63 0 1 = blank ∧ pixelBit (drawPixel blank 63 0 1) 63 0 = false := by
  refine ⟨?_, ?_, by decide⟩
  · simp [drawPixel]
  · simp [drawPixel]

/-! ## Text: proofs -/

theorem assignAll_append (img : Image) (a b : List ByteOp) :
    assignAll img (a ++ b) = assignAll (assignAll img a) b := by
  simp [assignAll, List.foldl_append]

theorem assignAll_unchanged (ws : List ByteOp) (img : Image) (off : Int)
    (h : ∀ w ∈ ws, cell w.row w.col ≠ off) : assignAll img ws off = img off := by
  induction ws generalizing img with
  | nil => rfl
  | cons w rest ih =>
    have hstep : assignAll img (w :: rest) = assignAll (store img (cell w.row w.col) w.val) rest :=
      rfl
    rw [hstep, ih _ (fun w2 hw2 => h w2 (List.mem_cons_of_mem _ hw2))]
    have hw := h w (List.mem_cons_self _ _)
    simp [store, Ne.symm hw]

/-- The column of eight assignments of one large glyph. -/
theorem assignAll_glyph (g : Nat → Nat) (y c : Int) (n : Nat) :
    ∀ (img : Image) (i : Nat), i < n →
      assignAll img ((List.range n).map
        (fun (i : Nat) => ({ row := y + (i : Int), col := c, val := g i } : ByteOp)))
        (cell (y + i) c) = g i % 256 := by
  induction n with
  | zero => intro img i hi; omega
  | succ n ih =>
    intro img i hi
    rw [List.range_succ, List.map_append, assignAll_append]
    simp only [List.map_cons, List.map_nil, assignAll, List.foldl_cons, List.foldl_nil]
    by_cases hin : i = n
    · subst hin
      simp [store]
    · have hlt : i < n := by omega
      have hne : cell (y + (i : Int)) c ≠ cell (y + (n : Int)) c := by
        unfold cell; omega
      have := ih img i hlt
      simp only [assignAll] at this
      simp only [store, if_neg hne, this]

theorem printStringLargeWrites_mem (f : Nat → Nat → Nat) (y : Int) (s : List Nat) :
    ∀ (c : Int), ∀ w ∈ printStringLargeWrites f y s c,
      ∃ k i : Nat, k < s.length ∧ c + k < 8 ∧ i < 8 ∧ w.row = y + i ∧ w.col = c + k := by
  induction s with
  | nil => intro c w hw; simp [printStringLargeWrites] at hw
  | cons ch rest ih =>
    intro c w hw
    rw [printStringLargeWrites] at hw
    split_ifs at hw with hg
    · rw [List.mem_append] at hw
      rcases hw with hw | hw
      · simp only [List.mem_map, List.mem_range] at hw
        obtain ⟨i, hi, rfl⟩ := hw
        exact ⟨0, i, by simp, by simp [hg.2], hi, rfl, by simp⟩
      · obtain ⟨k, i, hk, hc, hi, hr, hcol⟩ := ih (c + 1) w hw
        refine ⟨k + 1, i, by simp [hk], ?_, hi, hr, ?_⟩
        · push_cast; omega
        · push_cast; omega
    · simp at hw

theorem printStringLargeWrites_get (f : Nat → Nat → Nat) (y : Int) (s : List Nat) :
    ∀ (c : Int) (img : Image), 0 ≤ c → (∀ ch ∈ s, ch ≠ 0) →
      ∀ (k : Nat) (ch i : Nat), s[k]? = some ch → c + k < 8 → i < 8 →
        assignAll img (printStringLargeWrites f y s c) (cell (y + i) (c + k))
          = f (ch - 1) i % 256 := by
  induction s with
  | nil => intro c img _ _ k ch i hk; simp at hk
  | cons c0 rest ih =>
    intro c img hc hs k ch i hk hck hi
    have hc0 : c0 ≠ 0 := hs c0 (List.mem_cons_self _ _)
    have hrest : ∀ ch ∈ rest, ch ≠ 0 := fun ch h => hs ch (List.mem_cons_of_mem _ h)
    have hg : c0 ≠ 0 ∧ c < 8 := ⟨hc0, by omega⟩
    rw [printStringLargeWrites, if_pos hg, assignAll_append]
    cases k with
    | zero =>
      simp only [List.getElem?_cons_zero, Option.some.injEq] at hk
      subst hk
      rw [assignAll_unchanged]
      · simpa using assignAll_glyph (f (c0 - 1)) y c 8 img i hi
      · intro w hw
        obtain ⟨k2, i2, _, hc2, hi2, hr, hcol⟩ := printStringLargeWrites_mem f y rest (c + 1) w hw
        rw [hr, hcol]
        unfold cell
        push_cast
        omega
    | succ k2 =>
      simp only [List.getElem?_cons_succ] at hk
      have := ih (c + 1) (assignAll img ((List.range 8).map
        (fun (i : Nat) => ({ row := y + (i : Int), col := c, val := f (c0 - 1) i } : ByteOp))))
        (by omega) hrest k2 ch i hk (by push_cast at hck; omega) hi
      have hcell : c + ((k2 + 1 : Nat) : Int) = c + 1 + (k2 : Int) := by push_cast; ring
      rw [hcell]
      exact this

/-- C11. For `0 ≤ x < 64`, `0 ≤ y ≤ 40`, a font of bytes and a string with
codes in `1 .. 127`: after `printStringLarge (x, y, s)` the byte
`image[y + i][x div 8 + k]` is `chars8x8[s[k] - 1][i]` for every character `k`
of `s` with `x div 8 + k < 8` and every `i < 8` (these bytes lie in the array),
and every other byte is unchanged. -/
theorem printStringLarge_blit (f : Nat → Nat → Nat) (hf : ∀ g i, f g i < 256)
    (img : Image) (x y : Int) (s : List Nat)
    (hx0 : 0 ≤ x) (hx : x < 64) (hy0 : 0 ≤ y) (hy : y ≤ 40)
    (hs : ∀ ch ∈ s, 1 ≤ ch ∧ ch ≤ 127) :
    (∀ (k ch i : Nat), s[k]? = some ch → x.tdiv 8 + k < 8 → i < 8 →
      inImage (cell (y + i) (x.tdiv 8 + k)) ∧
      printStringLarge f img x y s (cell (y + i) (x.tdiv 8 + k)) = f (ch - 1) i) ∧
    (∀ off, (∀ (k i : Nat), k < s.length → x.tdiv 8 + k < 8 → i < 8 →
        off ≠ cell (y + i) (x.tdiv 8 + k)) →
      printStringLarge f img x y s off = img off) := by
  have hxd : x.tdiv 8 = x / 8 := Int.tdiv_eq_ediv hx0 (by decide)
  have hc0 : 0 ≤ x.tdiv 8 := by rw [hxd]; omega
  have hs0 : ∀ ch ∈ s, ch ≠ 0 := fun ch h => by have := (hs ch h).1; omega
  constructor
  · intro k ch i hk hck hi
    constructor
    · unfold inImage cell; omega
    · unfold printStringLarge
      rw [printStringLargeWrites_get f y s _ img hc0 hs0 k ch i hk hck hi]
      exact Nat.mod_eq_of_lt (hf _ _)
  · intro off hoff
    unfold printStringLarge
    apply assignAll_unchanged
    intro w hw
    obtain ⟨k, i, hk, hc, hi, hr, hcol⟩ := printStringLargeWrites_mem f y s _ w hw
    rw [hr, hcol]
    exact fun h => hoff k i hk hc hi h.symm

theorem printStringLarge_blit_witness :
    (∀ (k ch i : Nat), [72, 105][k]? = some ch → (16 : Int).tdiv 8 + k < 8 → i < 8 →
      inImage (cell (3 + i) ((16 : Int).tdiv 8 + k)) ∧
      printStringLarge (fun g i => (g + i) % 256) blank 16 3 [72, 105]
        (cell (3 + i) ((16 : Int).tdiv 8 + k)) = (fun g i => (g + i) % 256) (ch - 1) i) ∧
    (∀ off, (∀ (k i : Nat), k < [72, 105].length → (16 : Int).tdiv 8 + k < 8 → i < 8 →
        off ≠ cell (3 + i) ((16 : Int).tdiv 8 + k)) →
      printStringLarge (fun g i => (g + i) % 256) blank 16 3 [72, 105] off = blank off) :=
  printStringLarge_blit (fun g i => (g + i) % 256) (fun g i => Nat.mod_lt _ (by decide))
    blank 16 3 [72, 105] (by decide) (by decide) (by decide) (by decide) (by decide)

/-- C12 (defect of `printStringSmall`). The byte column used is `x / 4`, not
`x / 8`. For `x = 8` the first character is or-ed into `image[0..5][2]` (pixel
columns 16 .. 23) and byte column 1, which holds pixel columns 8 .. 15, is left
as it was; with a glyph row of 15 on the cleared buffer byte column 1 stays 0
and byte column 2 becomes 15. For `x = 4` the glyph goes to byte column 1
shifted by 4 bits, and for `x = 32` to `image[0][8]`, which is `image[1][0]`. -/
theorem printStringSmall_wrong_column (f : Nat → Nat → Nat) (img : Image) :
    printStringSmall f img 8 0 [65] (cell 0 1) = img (cell 0 1) ∧
    printStringSmall f img 8 0 [65] (cell 0 2) = (img (cell 0 2) ||| f 64 0) % 256 ∧
    printStringSmall (fun _ _ => 15) blank 8 0 [65] (cell 0 1) = 0 ∧
    printStringSmall (fun _ _ => 15) blank 8 0 [65] (cell 0 2) = 15 ∧
    printStringSmall (fun _ _ => 15) blank 4 0 [65] (cell 0 0) = 0 ∧
    printStringSmall (fun _ _ => 15) blank 4 0 [65] (cell 0 1) = 240 ∧
    printStringSmall (fun _ _ => 15) blank 32 0 [65] (cell 0 4) = 0 ∧
    printStringSmall (fun _ _ => 15) blank 32 0 [65] (cell 0 8) = 15 ∧
    cell 0 8 = cell 1 0 := by
  refine ⟨?_, ?_, by decide, by decide, by decide, by decide, by decide, by decide, by decide⟩
  · have h : (8 : Int).tdiv 4 = 2 := by decide
    simp [printStringSmall, printStringSmallWrites, orAll, store, cell, List.range,
      List.range.loop, h]
  · have h : (8 : Int).tdiv 4 = 2 := by decide
    simp [printStringSmall, printStringSmallWrites, orAll, store, cell, List.range,
      List.range.loop, h]

/-- Where `printStringLarge` writes: rows `y .. y + 7`, byte columns from the
current one up to 7. -/
theorem printStringLargeWrites_bounds (f : Nat → Nat → Nat) (y : Int) (s : List Nat) :
    ∀ c : Int, ∀ w ∈ printStringLargeWrites f y s c,
      y ≤ w.row ∧ w.row ≤ y + 7 ∧ c ≤ w.col ∧ w.col < 8 := by
  induction s with
  | nil => intro c w hw; simp [printStringLargeWrites] at hw
  | cons ch rest ih =>
    intro c w hw
    rw [printStringLargeWrites] at hw
    split_ifs at hw with hg
    · rw [List.mem_append] at hw
      rcases hw with hw | hw
      · simp only [List.mem_map, List.mem_range] at hw
        obtain ⟨i, hi, rfl⟩ := hw
        simp only
        omega
      · have := ih (c + 1) w hw
        omega
    · simp at hw

/-- Where `printStringSmall` writes: rows `y .. y + 5`, column indices from the
current one up to 15. -/
theorem printStringSmallWrites_bounds (f : Nat → Nat → Nat) (y : Int) (s : List Nat) :
    ∀ c l : Int, ∀ w ∈ printStringSmallWrites f y s c l,
      y ≤ w.row ∧ w.row ≤ y + 5 ∧ c ≤ w.col ∧ w.col < 16 := by
  induction s with
  | nil => intro c l w hw; simp [printStringSmallWrites] at hw
  | cons ch rest ih =>
    intro c l w hw
    rw [printStringSmallWrites] at hw
    split_ifs at hw with hg hl
    · rw [List.mem_append] at hw
      rcases hw with hw | hw
      · simp only [List.mem_map, List.mem_range] at hw
        obtain ⟨i, hi, rfl⟩ := hw
        simp only
        omega
      · have := ih c (l + 1) w hw
        omega
    · rw [List.mem_append] at hw
      rcases hw with hw | hw
      · simp only [List.mem_map, List.mem_range] at hw
        obtain ⟨i, hi, rfl⟩ := hw
        simp only
        omega
      · have := ih (c + 1) (l + 1) w hw
        omega
    · simp at hw

/-- C13 (defect of the text routines: writes outside the buffer). Neither
routine checks the row, and `printStringSmall` lets the byte column run up to
15. `printStringLarge (0, 47, "A")` writes the byte offsets 376, 384, .. , 432,
of which only 376 is in the array, and leaves 255 (the glyph row) at offset
384. `printStringSmall (32, 0, "A")` writes column index 8 in every row, that
is `image[0][8] = image[1][0]`. `printStringSmall (60, 42, "A")` writes column
index 15 of rows 42 .. 47, the last at offset 391 outside the array, where it
leaves 240. -/
theorem text_writes_outside :
    (printStringLargeWrites (fun _ _ => 255) 47 [65] ((0 : Int).tdiv 8)).map
        (fun w => cell w.row w.col) = [376, 384, 392, 400, 408, 416, 424, 432] ∧
    ¬ (∀ w ∈ printStringLargeWrites (fun _ _ => 255) 47 [65] ((0 : Int).tdiv 8),
        0 ≤ w.row ∧ w.row < 48 ∧ 0 ≤ w.col ∧ w.col < 8) ∧
    ¬ inImage (cell 48 0) ∧
    printStringLarge (fun _ _ => 255) blank 0 47 [65] (cell 48 0) = 255 ∧
    (printStringSmallWrites (fun _ _ => 15) 0 [65] ((32 : Int).tdiv 4) ((32 : Int).tdiv 4)).map
        (fun w => (w.row, w.col)) = [(0, 8), (1, 8), (2, 8), (3, 8), (4, 8), (5, 8)] ∧
    ¬ (∀ w ∈ printStringSmallWrites (fun _ _ => 15) 0 [65] ((32 : Int).tdiv 4)
          ((32 : Int).tdiv 4),
        0 ≤ w.row ∧ w.row < 48 ∧ 0 ≤ w.col ∧ w.col < 8) ∧
    (printStringSmallWrites (fun _ _ => 15) 42 [65] ((60 : Int).tdiv 4) ((60 : Int).tdiv 4)).map
        (fun w => cell w.row w.col) = [351, 359, 367, 375, 383, 391] ∧
    ¬ inImage (cell 47 15) ∧
    printStringSmall (fun _ _ => 15) blank 60 42 [65] (cell 47 15) = 240 := by
  decide

/-! ## Rasterizer: lines and rectangles -/

theorem drawLineLoop_fuel_mono (x2 y2 dx dy sx sy : Int) (fuel : Nat) :
    ∀ (x1 y1 error : Int) (l : List (Int × Int)),
      drawLineLoop x2 y2 dx dy sx sy fuel x1 y1 error = some l →
      ∀ fuel2, fuel ≤ fuel2 → drawLineLoop x2 y2 dx dy sx sy fuel2 x1 y1 error = some l := by
  induction fuel with
  | zero =>
    intro x1 y1 error l h fuel2 _
    rw [drawLineLoop] at h
    by_cases hd : x1 = x2 ∧ y1 = y2
    · rw [if_pos hd] at h
      cases fuel2 <;> simp [drawLineLoop, hd, h]
    · rw [if_neg hd] at h
      exact absurd h (by simp)
  | succ f ih =>
    intro x1 y1 error l h fuel2 hf
    obtain ⟨f2, rfl⟩ : ∃ f2, fuel2 = f2 + 1 := ⟨fuel2 - 1, by omega⟩
    rw [drawLineLoop] at h ⊢
    by_cases hd : x1 = x2 ∧ y1 = y2
    · rw [if_pos hd] at h ⊢
      exact h
    · rw [if_neg hd] at h ⊢
      simp only [Option.map_eq_some'] at h ⊢
      obtain ⟨l2, hl2, rfl⟩ := h
      exact ⟨l2, ih _ _ _ _ hl2 f2 (by omega), rfl⟩


theorem drawLineLoop_horizontal (x2 y dx sx sy : Int) (hdx : 0 < dx)
    (hsx : sx = 1 ∨ sx = -1) (n : Nat) :
    ∀ (fuel : Nat) (x1 : Int), n ≤ fuel → x2 = x1 + sx * n →
      drawLineLoop x2 y dx 0 sx sy fuel x1 y dx
        = some ((List.range n).map (fun (k : Nat) => (x1 + sx * (k : Int), y))) := by
  induction n with
  | zero =>
    intro fuel x1 _ hx
    have hx1 : x1 = x2 := by simp at hx; exact hx.symm
    cases fuel <;> simp [drawLineLoop, hx1]
  | succ n ih =>
    intro fuel x1 hf hx
    obtain ⟨f, rfl⟩ : ∃ f, fuel = f + 1 := ⟨fuel - 1, by omega⟩
    have hne : ¬ (x1 = x2) := by
      intro h
      rcases hsx with rfl | rfl <;> push_cast at hx <;> omega
    have h1 : dx * 2 > -0 := by omega
    have h2 : ¬ (dx * 2 < dx) := by omega
    have hrec := ih f (x1 + sx) (by omega) (by push_cast at hx; rw [hx]; ring)
    rw [drawLineLoop]
    simp only [hne, false_and, if_false, h1, if_true, h2, sub_zero, hrec, Option.map_some']
    rw [List.range_succ_eq_map, List.map_cons, List.map_map]
    simp
    intro a _
    ring

theorem drawLineLoop_vertical (x y2 dy sx sy : Int) (hdy : 0 < dy)
    (hsy : sy = 1 ∨ sy = -1) (n : Nat) :
    ∀ (fuel : Nat) (y1 : Int), n ≤ fuel → y2 = y1 + sy * n →
      drawLineLoop x y2 0 dy sx sy fuel x y1 (-dy)
        = some ((List.range n).map (fun (k : Nat) => (x, y1 + sy * (k : Int)))) := by
  induction n with
  | zero =>
    intro fuel y1 _ hy
    have hy1 : y1 = y2 := by simp at hy; exact hy.symm
    cases fuel <;> simp [drawLineLoop, hy1]
  | succ n ih =>
    intro fuel y1 hf hy
    obtain ⟨f, rfl⟩ : ∃ f, fuel = f + 1 := ⟨fuel - 1, by omega⟩
    have hne : ¬ (y1 = y2) := by
      intro h
      rcases hsy with rfl | rfl <;> push_cast at hy <;> omega
    have h1 : ¬ (-dy * 2 > -dy) := by omega
    have h2 : -dy * 2 < 0 := by omega
    have hrec := ih f (y1 + sy) (by omega) (by push_cast at hy; rw [hy]; ring)
    rw [drawLineLoop]
    simp only [hne, and_false, if_false, h1, h2, if_true, add_zero, hrec, Option.map_some']
    rw [List.range_succ_eq_map, List.map_cons, List.map_map]
    simp
    intro a _
    ring

theorem drawLineCalls_horizontal (fuel : Nat) (x1 x2 y : Int)
    (hf : c_abs (x2 - x1) ≤ (fuel : Int)) :
    ∃ pts, drawLineCalls fuel x1 y x2 y = some pts ∧
      ∀ u v, (u, v) ∈ pts ↔ v = y ∧ (x1 ≤ u ∧ u < x2 ∨ x2 < u ∧ u ≤ x1) := by
  unfold c_abs at hf
  unfold drawLineCalls c_abs
  simp only [sub_self, lt_self_iff_false, if_false, sub_zero]
  rcases lt_trichotomy x1 x2 with h | h | h
  · have hn : ¬ (x2 - x1 < 0) := by omega
    rw [if_neg hn] at hf
    rw [if_neg hn, if_pos h,
      drawLineLoop_horizontal x2 y (x2 - x1) 1 (-1) (by omega) (Or.inl rfl) (x2 - x1).toNat
        fuel x1 (by omega) (by rw [Int.toNat_of_nonneg (by omega)]; ring)]
    refine ⟨_, rfl, ?_⟩
    intro u v
    simp only [List.mem_map, List.mem_range, Prod.mk.injEq]
    constructor
    · rintro ⟨k, hk, rfl, rfl⟩
      omega
    · rintro ⟨rfl, hu⟩
      exact ⟨(u - x1).toNat, by omega, by omega, rfl⟩
  · subst h
    refine ⟨[], ?_, ?_⟩
    · cases fuel <;> simp [drawLineLoop]
    · intro u v; simp
  · have hn : x2 - x1 < 0 := by omega
    rw [if_pos hn] at hf
    rw [if_pos hn, if_neg (by omega),
      drawLineLoop_horizontal x2 y (-(x2 - x1)) (-1) (-1) (by omega) (Or.inr rfl) (x1 - x2).toNat
        fuel x1 (by omega) (by rw [Int.toNat_of_nonneg (by omega)]; ring)]
    refine ⟨_, rfl, ?_⟩
    intro u v
    simp only [List.mem_map, List.mem_range, Prod.mk.injEq]
    constructor
    · rintro ⟨k, hk, rfl, rfl⟩
      omega
    · rintro ⟨rfl, hu⟩
      exact ⟨(x1 - u).toNat, by omega, by omega, rfl⟩

theorem drawLineCalls_vertical (fuel : Nat) (x y1 y2 : Int)
    (hf : c_abs (y2 - y1) ≤ (fuel : Int)) :
    ∃ pts, drawLineCalls fuel x y1 x y2 = some pts ∧
      ∀ u v, (u, v) ∈ pts ↔ u = x ∧ (y1 ≤ v ∧ v < y2 ∨ y2 < v ∧ v ≤ y1) := by
  unfold c_abs at hf
  unfold drawLineCalls c_abs
  simp only [sub_self, lt_self_iff_false, if_false, zero_sub]
  rcases lt_trichotomy y1 y2 with h | h | h
  · have hn : ¬ (y2 - y1 < 0) := by omega
    rw [if_neg hn] at hf
    rw [if_neg hn, if_pos h,
      drawLineLoop_vertical x y2 (y2 - y1) (-1) 1 (by omega) (Or.inl rfl) (y2 - y1).toNat
        fuel y1 (by omega) (by rw [Int.toNat_of_nonneg (by omega)]; ring)]
    refine ⟨_, rfl, ?_⟩
    intro u v
    simp only [List.mem_map, List.mem_range, Prod.mk.injEq]
    constructor
    · rintro ⟨k, hk, rfl, rfl⟩
      omega
    · rintro ⟨rfl, hu⟩
      exact ⟨(v - y1).toNat, by omega, rfl, by omega⟩
  · subst h
    refine ⟨[], ?_, ?_⟩
    · cases fuel <;> simp [drawLineLoop]
    · intro u v; simp
  · have hn : y2 - y1 < 0 := by omega
    rw [if_pos hn] at hf
    rw [if_pos hn, if_neg (by omega),
      drawLineLoop_vertical x y2 (-(y2 - y1)) (-1) (-1) (by omega) (Or.inr rfl) (y1 - y2).toNat
        fuel y1 (by omega) (by rw [Int.toNat_of_nonneg (by omega)]; ring)]
    refine ⟨_, rfl, ?_⟩
    intro u v
    simp only [List.mem_map, List.mem_range, Prod.mk.injEq]
    constructor
    · rintro ⟨k, hk, rfl, rfl⟩
      omega
    · rintro ⟨rfl, hu⟩
      exact ⟨(y1 - v).toNat, by omega, rfl, by omega⟩


theorem drawLine_some (fuel : Nat) (img : Image) (x1 y1 x2 y2 c : Int) (pts : List (Int × Int))
    (h : drawLineCalls fuel x1 y1 x2 y2 = some pts) :
    drawLine fuel img x1 y1 x2 y2 c = some (drawPixels img pts c) := by
  simp [drawLine, h]

theorem drawLineLoop_not_mem (x2 y2 dx dy sx sy : Int) (fuel : Nat) :
    ∀ (x1 y1 error : Int) (l : List (Int × Int)),
      drawLineLoop x2 y2 dx dy sx sy fuel x1 y1 error = some l → (x2, y2) ∉ l := by
  induction fuel with
  | zero =>
    intro x1 y1 error l h
    rw [drawLineLoop] at h
    by_cases hd : x1 = x2 ∧ y1 = y2
    · rw [if_pos hd] at h
      simp only [Option.some.injEq] at h
      subst h
      simp
    · rw [if_neg hd] at h
      exact absurd h (by simp)
  | succ f ih =>
    intro x1 y1 error l h
    rw [drawLineLoop] at h
    by_cases hd : x1 = x2 ∧ y1 = y2
    · rw [if_pos hd] at h
      simp only [Option.some.injEq] at h
      subst h
      simp
    · rw [if_neg hd] at h
      simp only [Option.map_eq_some'] at h
      obtain ⟨l2, hl2, rfl⟩ := h
      have hrest := ih _ _ _ _ hl2
      intro hmem
      rcases List.mem_cons.1 hmem with heq | hin
      · simp only [Prod.mk.injEq] at heq
        exact hd ⟨heq.1.symm, heq.2.symm⟩
      · exact hrest hin

/-- C4 (defect of `drawLine`). With any fuel of at least 5, `drawLine (0, 0, 5, 0, c)`
calls `drawPixel` on the five points `(0,0) .. (4,0)` and
`drawLine (0, 0, 3, 3, c)` on `(0,0), (1,1), (2,2)`: the loop stops on reaching
the endpoint `(x2, y2)` before painting it. On the cleared buffer
`drawLine (0, 0, 5, 0, 1)` leaves `image[0][0] = 31` and pixel `(5, 0)` dark.
For no endpoints at all is `(x2, y2)` among the points passed to `drawPixel`. -/
theorem drawLine_omits_endpoint (fuel : Nat) (hf : 5 ≤ fuel) :
    drawLineCalls fuel 0 0 5 0 = some [(0, 0), (1, 0), (2, 0), (3, 0), (4, 0)] ∧
    drawLineCalls fuel 0 0 3 3 = some [(0, 0), (1, 1), (2, 2)] ∧
    (∃ img, drawLine fuel blank 0 0 5 0 1 = some img ∧ img (cell 0 0) = 31 ∧ ¬ lit img 5 0) ∧
    ∀ (x1 y1 x2 y2 : Int) (pts : List (Int × Int)),
      drawLineCalls fuel x1 y1 x2 y2 = some pts → (x2, y2) ∉ pts := by
  have h1 : drawLineCalls fuel 0 0 5 0 = some [(0, 0), (1, 0), (2, 0), (3, 0), (4, 0)] :=
    drawLineLoop_fuel_mono _ _ _ _ _ _ 5 _ _ _ _ (by decide) fuel hf
  have h2 : drawLineCalls fuel 0 0 3 3 = some [(0, 0), (1, 1), (2, 2)] :=
    drawLineLoop_fuel_mono _ _ _ _ _ _ 3 _ _ _ _ (by decide) fuel (by omega)
  refine ⟨h1, h2, ⟨_, drawLine_some fuel blank 0 0 5 0 1 _ h1, by decide, by decide⟩, ?_⟩
  intro x1 y1 x2 y2 pts h
  exact drawLineLoop_not_mem _ _ _ _ _ _ fuel _ _ _ pts h

theorem drawLine_omits_endpoint_witness :
    drawLineCalls 5 0 0 5 0 = some [(0, 0), (1, 0), (2, 0), (3, 0), (4, 0)] ∧
    drawLineCalls 5 0 0 3 3 = some [(0, 0), (1, 1), (2, 2)] ∧
    (∃ img, drawLine 5 blank 0 0 5 0 1 = some img ∧ img (cell 0 0) = 31 ∧ ¬ lit img 5 0) ∧
    ∀ (x1 y1 x2 y2 : Int) (pts : List (Int × Int)),
      drawLineCalls 5 x1 y1 x2 y2 = some pts → (x2, y2) ∉ pts :=
  drawLine_omits_endpoint 5 (by decide)

/-- C5. For `x, y ≥ 0`, `w, h ≥ 1`, `x + w ≤ 62`, `y + h ≤ 47` and any buffer,
`drawRect (x, y, w, h, 1)` returns (fuel `max w h` is enough for each of its
lines), every pixel on the perimeter of the rectangle from `(x, y)` to
`(x + w, y + h)` is lit afterwards, and the stored bit of every other pixel of
the 64 x 48 buffer is what it was before. -/
theorem drawRect_perimeter (fuel : Nat) (img : Image) (x y w h : Int)
    (hx : 0 ≤ x) (hy : 0 ≤ y) (hw : 1 ≤ w) (hh : 1 ≤ h)
    (hxw : x + w ≤ 62) (hyh : y + h ≤ 47)
    (hfw : w ≤ (fuel : Int)) (hfh : h ≤ (fuel : Int)) :
    ∃ img2, drawRect fuel img x y w h 1 = some img2 ∧
      (∀ i j, x ≤ i → i ≤ x + w → y ≤ j → j ≤ y + h →
        (i = x ∨ i = x + w ∨ j = y ∨ j = y + h) → lit img2 i j) ∧
      (∀ i j, 0 ≤ i → i < 64 → 0 ≤ j → j < 48 →
        ¬ (x ≤ i ∧ i ≤ x + w ∧ y ≤ j ∧ j ≤ y + h ∧
            (i = x ∨ i = x + w ∨ j = y ∨ j = y + h)) →
        pixelBit img2 i j = pixelBit img i j) := by
  obtain ⟨p1, hp1, hm1⟩ := drawLineCalls_horizontal fuel x (x + w) y
    (by unfold c_abs; split_ifs <;> omega)
  obtain ⟨p2, hp2, hm2⟩ := drawLineCalls_vertical fuel (x + w) y (y + h)
    (by unfold c_abs; split_ifs <;> omega)
  obtain ⟨p3, hp3, hm3⟩ := drawLineCalls_horizontal fuel (x + w) x (y + h)
    (by unfold c_abs; split_ifs <;> omega)
  obtain ⟨p4, hp4, hm4⟩ := drawLineCalls_vertical fuel x (y + h) y
    (by unfold c_abs; split_ifs <;> omega)
  have hb1 : ∀ p ∈ p1, 0 ≤ p.1 ∧ p.1 ≤ 62 ∧ 0 ≤ p.2 ∧ p.2 ≤ 47 := by
    rintro ⟨u, v⟩ hp; have := (hm1 u v).1 hp; simp only; omega
  have hb2 : ∀ p ∈ p2, 0 ≤ p.1 ∧ p.1 ≤ 62 ∧ 0 ≤ p.2 ∧ p.2 ≤ 47 := by
    rintro ⟨u, v⟩ hp; have := (hm2 u v).1 hp; simp only; omega
  have hb3 : ∀ p ∈ p3, 0 ≤ p.1 ∧ p.1 ≤ 62 ∧ 0 ≤ p.2 ∧ p.2 ≤ 47 := by
    rintro ⟨u, v⟩ hp; have := (hm3 u v).1 hp; simp only; omega
  have hb4 : ∀ p ∈ p4, 0 ≤ p.1 ∧ p.1 ≤ 62 ∧ 0 ≤ p.2 ∧ p.2 ≤ 47 := by
    rintro ⟨u, v⟩ hp; have := (hm4 u v).1 hp; simp only; omega
  have hres : drawRect fuel img x y w h 1
      = some (drawPixels (drawPixels (drawPixels (drawPixels img p1 1) p2 1) p3 1) p4 1) := by
    unfold drawRect
    rw [drawLine_some _ _ _ _ _ _ _ _ hp1, Option.some_bind,
      drawLine_some _ _ _ _ _ _ _ _ hp2, Option.some_bind,
      drawLine_some _ _ _ _ _ _ _ _ hp3, Option.some_bind,
      drawLine_some _ _ _ _ _ _ _ _ hp4]
  have hbit : ∀ i j, 0 ≤ i → i < 64 →
      (pixelBit (drawPixels (drawPixels (drawPixels (drawPixels img p1 1) p2 1) p3 1) p4 1) i j
          = true ↔
        pixelBit img i j = true ∨ (i, j) ∈ p1 ∨ (i, j) ∈ p2 ∨ (i, j) ∈ p3 ∨ (i, j) ∈ p4) := by
    intro i j hi0 hi
    rw [pixelBit_drawPixels_on p4 _ i j hb4 hi0 hi, pixelBit_drawPixels_on p3 _ i j hb3 hi0 hi,
      pixelBit_drawPixels_on p2 _ i j hb2 hi0 hi, pixelBit_drawPixels_on p1 _ i j hb1 hi0 hi]
    tauto
  refine ⟨_, hres, ?_, ?_⟩
  · intro i j h1 h2 h3 h4 hper
    refine ⟨by omega, by omega, by omega, by omega, ?_⟩
    rw [hbit i j (by omega) (by omega), hm1, hm2, hm3, hm4]
    right
    omega
  · intro i j hi0 hi hj0 hj hnot
    rw [Bool.eq_iff_iff, hbit i j hi0 hi, hm1, hm2, hm3, hm4]
    constructor
    · rintro (hp | hq)
      · exact hp
      · exfalso; omega
    · intro hp; exact Or.inl hp

theorem drawRect_perimeter_witness :
    ∃ img2, drawRect 4 blank 2 2 4 3 1 = some img2 ∧
      (∀ i j, (2 : Int) ≤ i → i ≤ 2 + 4 → (2 : Int) ≤ j → j ≤ 2 + 3 →
        (i = 2 ∨ i = 2 + 4 ∨ j = 2 ∨ j = 2 + 3) → lit img2 i j) ∧
      (∀ i j, 0 ≤ i → i < 64 → 0 ≤ j → j < 48 →
        ¬ ((2 : Int) ≤ i ∧ i ≤ 2 + 4 ∧ (2 : Int) ≤ j ∧ j ≤ 2 + 3 ∧
            (i = 2 ∨ i = 2 + 4 ∨ j = 2 ∨ j = 2 + 3)) →
        pixelBit img2 i j = pixelBit blank i j) :=
  drawRect_perimeter 4 blank 2 2 4 3 (by decide) (by decide) (by decide) (by decide)
    (by decide) (by decide) (by decide) (by decide)

/-! ## Rasterizer: termination and accuracy of lines -/

theorem stepTowards_of_steps (x2 y2 sx sy : Int) (hsx : sx = 1 ∨ sx = -1) (hsy : sy = 1 ∨ sy = -1)
    (a a2 b b2 : Nat) (ha : a2 ≤ a) (ha1 : a ≤ a2 + 1) (hb : b2 ≤ b) (hb1 : b ≤ b2 + 1) :
    stepTowards x2 y2 (x2 - sx * a, y2 - sy * b) (x2 - sx * a2, y2 - sy * b2) := by
  unfold stepTowards c_abs
  rcases hsx with rfl | rfl <;> rcases hsy with rfl | rfl <;>
    (simp only; refine ⟨?_, ?_, ?_, ?_⟩ <;> split_ifs <;> omega)

theorem drawLineLoop_xmajor (x2 y2 dx dy sx sy : Int)
    (hsx : sx = 1 ∨ sx = -1) (hsy : sy = 1 ∨ sy = -1)
    (hdx : 0 < dx) (hdy : 0 ≤ dy) (hle : dy ≤ dx) (a : Nat) :
    ∀ (b : Nat) (e : Int),
      e = dx - dy + (a : Int) * dy - (b : Int) * dx →
      dx - 2 * dy ≤ 2 * e → 2 * e ≤ 3 * dx - 2 * dy → (dx = dy → e = 0) →
      ∃ pts : List (Int × Int),
        (∀ fuel, a ≤ fuel →
          drawLineLoop x2 y2 dx dy sx sy fuel (x2 - sx * a) (y2 - sy * b) e = some pts) ∧
        (∀ fuel, fuel < a →
          drawLineLoop x2 y2 dx dy sx sy fuel (x2 - sx * a) (y2 - sy * b) e = none) ∧
        pts.length = a ∧
        (pts ++ [(x2, y2)]).head? = some (x2 - sx * a, y2 - sy * b) ∧
        List.Chain' (stepTowards x2 y2) (pts ++ [(x2, y2)]) ∧
        ∀ p ∈ pts, ∃ a2 b2 : Nat, a2 ≤ a ∧ b2 ≤ b ∧ p = (x2 - sx * a2, y2 - sy * b2) ∧
          -dx ≤ 2 * ((a2 : Int) * dy - (b2 : Int) * dx) ∧
          2 * ((a2 : Int) * dy - (b2 : Int) * dx) ≤ dx := by
  induction a with
  | zero =>
    intro b e he h1 h2 h3
    have hb : b = 0 := by
      by_contra hb0
      have hb1 : (1 : Int) ≤ (b : Int) := by omega
      have : dx ≤ (b : Int) * dx := le_mul_of_one_le_left (le_of_lt hdx) hb1
      simp only [Nat.cast_zero, zero_mul, add_zero] at he
      omega
    subst hb
    refine ⟨[], ?_, ?_, rfl, by simp, by simp, by simp⟩
    · intro fuel _
      cases fuel <;> simp [drawLineLoop]
    · intro fuel hf
      omega
  | succ a ih =>
    intro b e he h1 h2 h3
    have hA : (0 : Int) ≤ (a : Int) * dy := mul_nonneg (Int.ofNat_nonneg a) hdy
    have he2 : e = dx - dy + (a : Int) * dy + dy - (b : Int) * dx := by
      rw [he]; push_cast; ring
    have hne : ¬ (x2 - sx * ((a + 1 : Nat) : Int) = x2) := by
      rcases hsx with rfl | rfl <;> push_cast <;> omega
    have hstepx : e * 2 > -dy := by omega
    have hxA : x2 - sx * ((a + 1 : Nat) : Int) + sx = x2 - sx * (a : Int) := by
      push_cast; ring
    have hacc : -dx ≤ 2 * (((a + 1 : Nat) : Int) * dy - (b : Int) * dx) ∧
        2 * (((a + 1 : Nat) : Int) * dy - (b : Int) * dx) ≤ dx := by
      push_cast
      constructor <;> linarith
    by_cases hy : e * 2 < dx
    · -- the y coordinate steps as well
      have hb : 1 ≤ b := by
        by_contra hb0
        have hb00 : b = 0 := by omega
        subst hb00
        simp only [Nat.cast_zero, zero_mul, sub_zero] at he2
        omega
      obtain ⟨b2, rfl⟩ : ∃ b2, b = b2 + 1 := ⟨b - 1, by omega⟩
      have hyB : y2 - sy * ((b2 + 1 : Nat) : Int) + sy = y2 - sy * (b2 : Int) := by
        push_cast; ring
      obtain ⟨pts, hsome, hnone, hlen, hhead, hchain, hmem⟩ := ih b2 (e - dy + dx)
        (by rw [he2]; push_cast; ring) (by omega) (by omega) (by intro h; have := h3 h; omega)
      refine ⟨(x2 - sx * ((a + 1 : Nat) : Int), y2 - sy * ((b2 + 1 : Nat) : Int)) :: pts,
        ?_, ?_, by simp [hlen], by simp, ?_, ?_⟩
      · intro fuel hf
        obtain ⟨f, rfl⟩ : ∃ f, fuel = f + 1 := ⟨fuel - 1, by omega⟩
        rw [drawLineLoop]
        simp only [hne, false_and, if_false, hstepx, if_true, hy, hxA, hyB,
          hsome f (by omega), Option.map_some']
      · intro fuel hf
        cases fuel with
        | zero => rw [drawLineLoop, if_neg (fun h => hne h.1)]
        | succ f =>
          rw [drawLineLoop]
          simp only [hne, false_and, if_false, hstepx, if_true, hy, hxA, hyB,
            hnone f (by omega), Option.map_none']
      · rw [List.cons_append, List.chain'_cons']
        refine ⟨?_, hchain⟩
        intro q hq
        rw [hhead] at hq
        simp only [Option.mem_def, Option.some.injEq] at hq
        subst hq
        exact stepTowards_of_steps x2 y2 sx sy hsx hsy (a + 1) a (b2 + 1) b2
          (by omega) (by omega) (by omega) (by omega)
      · intro p hp
        rcases List.mem_cons.1 hp with rfl | hp
        · exact ⟨a + 1, b2 + 1, le_refl _, le_refl _, rfl, hacc⟩
        · obtain ⟨a3, b3, ha3, hb3, hp3, hacc3⟩ := hmem p hp
          exact ⟨a3, b3, by omega, by omega, hp3, hacc3⟩
    · -- only the x coordinate steps
      obtain ⟨pts, hsome, hnone, hlen, hhead, hchain, hmem⟩ := ih b (e - dy)
        (by rw [he2]; ring) (by omega) (by omega) (by intro h; have := h3 h; omega)
      refine ⟨(x2 - sx * ((a + 1 : Nat) : Int), y2 - sy * (b : Int)) :: pts,
        ?_, ?_, by simp [hlen], by simp, ?_, ?_⟩
      · intro fuel hf
        obtain ⟨f, rfl⟩ : ∃ f, fuel = f + 1 := ⟨fuel - 1, by omega⟩
        rw [drawLineLoop]
        simp only [hne, false_and, if_false, hstepx, if_true, hy, hxA,
          hsome f (by omega), Option.map_some']
      · intro fuel hf
        cases fuel with
        | zero => rw [drawLineLoop, if_neg (fun h => hne h.1)]
        | succ f =>
          rw [drawLineLoop]
          simp only [hne, false_and, if_false, hstepx, if_true, hy, hxA,
            hnone f (by omega), Option.map_none']
      · rw [List.cons_append, List.chain'_cons']
        refine ⟨?_, hchain⟩
        intro q hq
        rw [hhead] at hq
        simp only [Option.mem_def, Option.some.injEq] at hq
        subst hq
        exact stepTowards_of_steps x2 y2 sx sy hsx hsy (a + 1) a b b
          (by omega) (by omega) (by omega) (by omega)
      · intro p hp
        rcases List.mem_cons.1 hp with rfl | hp
        · exact ⟨a + 1, b, le_refl _, le_refl _, rfl, hacc⟩
        · obtain ⟨a3, b3, ha3, hb3, hp3, hacc3⟩ := hmem p hp
          exact ⟨a3, b3, by omega, by omega, hp3, hacc3⟩

theorem drawLineLoop_ymajor (x2 y2 dx dy sx sy : Int)
    (hsx : sx = 1 ∨ sx = -1) (hsy : sy = 1 ∨ sy = -1)
    (hdx : 0 ≤ dx) (hlt : dx < dy) (b : Nat) :
    ∀ (a : Nat) (e : Int),
      e = dx - dy + (a : Int) * dy - (b : Int) * dx →
      2 * dx - 3 * dy ≤ 2 * e → 2 * e ≤ 2 * dx - dy →
      ∃ pts : List (Int × Int),
        (∀ fuel, b ≤ fuel →
          drawLineLoop x2 y2 dx dy sx sy fuel (x2 - sx * a) (y2 - sy * b) e = some pts) ∧
        (∀ fuel, fuel < b →
          drawLineLoop x2 y2 dx dy sx sy fuel (x2 - sx * a) (y2 - sy * b) e = none) ∧
        pts.length = b ∧
        (pts ++ [(x2, y2)]).head? = some (x2 - sx * a, y2 - sy * b) ∧
        List.Chain' (stepTowards x2 y2) (pts ++ [(x2, y2)]) ∧
        ∀ p ∈ pts, ∃ a2 b2 : Nat, a2 ≤ a ∧ b2 ≤ b ∧ p = (x2 - sx * a2, y2 - sy * b2) ∧
          -dy ≤ 2 * ((a2 : Int) * dy - (b2 : Int) * dx) ∧
          2 * ((a2 : Int) * dy - (b2 : Int) * dx) ≤ dy := by
  induction b with
  | zero =>
    intro a e he h1 h2
    have ha : a = 0 := by
      by_contra ha0
      have ha1 : (1 : Int) ≤ (a : Int) := by omega
      have : dy ≤ (a : Int) * dy := le_mul_of_one_le_left (by omega) ha1
      simp only [Nat.cast_zero, zero_mul, sub_zero] at he
      omega
    subst ha
    refine ⟨[], ?_, ?_, rfl, by simp, by simp, by simp⟩
    · intro fuel _
      cases fuel <;> simp [drawLineLoop]
    · intro fuel hf
      omega
  | succ b ih =>
    intro a e he h1 h2
    have hB : (0 : Int) ≤ (b : Int) * dx := mul_nonneg (Int.ofNat_nonneg b) hdx
    have he2 : e = dx - dy + (a : Int) * dy - (b : Int) * dx - dx := by
      rw [he]; push_cast; ring
    have hne : ¬ (y2 - sy * ((b + 1 : Nat) : Int) = y2) := by
      rcases hsy with rfl | rfl <;> push_cast <;> omega
    have hstepy : e * 2 < dx := by omega
    have hyB : y2 - sy * ((b + 1 : Nat) : Int) + sy = y2 - sy * (b : Int) := by
      push_cast; ring
    have hacc : -dy ≤ 2 * ((a : Int) * dy - ((b + 1 : Nat) : Int) * dx) ∧
        2 * ((a : Int) * dy - ((b + 1 : Nat) : Int) * dx) ≤ dy := by
      push_cast
      constructor <;> linarith
    by_cases hx : e * 2 > -dy
    · -- the x coordinate steps as well
      have ha : 1 ≤ a := by
        by_contra ha0
        have ha00 : a = 0 := by omega
        subst ha00
        simp only [Nat.cast_zero, zero_mul, add_zero] at he2
        omega
      obtain ⟨a2, rfl⟩ : ∃ a2, a = a2 + 1 := ⟨a - 1, by omega⟩
      have hxA : x2 - sx * ((a2 + 1 : Nat) : Int) + sx = x2 - sx * (a2 : Int) := by
        push_cast; ring
      obtain ⟨pts, hsome, hnone, hlen, hhead, hchain, hmem⟩ := ih a2 (e - dy + dx)
        (by rw [he2]; push_cast; ring) (by omega) (by omega)
      refine ⟨(x2 - sx * ((a2 + 1 : Nat) : Int), y2 - sy * ((b + 1 : Nat) : Int)) :: pts,
        ?_, ?_, by simp [hlen], by simp, ?_, ?_⟩
      · intro fuel hf
        obtain ⟨f, rfl⟩ : ∃ f, fuel = f + 1 := ⟨fuel - 1, by omega⟩
        rw [drawLineLoop]
        simp only [hne, and_false, if_false, hstepy, if_true, hx, hxA, hyB,
          hsome f (by omega), Option.map_some']
      · intro fuel hf
        cases fuel with
        | zero => rw [drawLineLoop, if_neg (fun h => hne h.2)]
        | succ f =>
          rw [drawLineLoop]
          simp only [hne, and_false, if_false, hstepy, if_true, hx, hxA, hyB,
            hnone f (by omega), Option.map_none']
      · rw [List.cons_append, List.chain'_cons']
        refine ⟨?_, hchain⟩
        intro q hq
        rw [hhead] at hq
        simp only [Option.mem_def, Option.some.injEq] at hq
        subst hq
        exact stepTowards_of_steps x2 y2 sx sy hsx hsy (a2 + 1) a2 (b + 1) b
          (by omega) (by omega) (by omega) (by omega)
      · intro p hp
        rcases List.mem_cons.1 hp with rfl | hp
        · exact ⟨a2 + 1, b + 1, le_refl _, le_refl _, rfl, hacc⟩
        · obtain ⟨a3, b3, ha3, hb3, hp3, hacc3⟩ := hmem p hp
          exact ⟨a3, b3, by omega, by omega, hp3, hacc3⟩
    · -- only the y coordinate steps
      obtain ⟨pts, hsome, hnone, hlen, hhead, hchain, hmem⟩ := ih a (e + dx)
        (by rw [he2]; ring) (by omega) (by omega)
      refine ⟨(x2 - sx * (a : Int), y2 - sy * ((b + 1 : Nat) : Int)) :: pts,
        ?_, ?_, by simp [hlen], by simp, ?_, ?_⟩
      · intro fuel hf
        obtain ⟨f, rfl⟩ : ∃ f, fuel = f + 1 := ⟨fuel - 1, by omega⟩
        rw [drawLineLoop]
        simp only [hne, and_false, if_false, hstepy, if_true, hx, hyB,
          hsome f (by omega), Option.map_some']
      · intro fuel hf
        cases fuel with
        | zero => rw [drawLineLoop, if_neg (fun h => hne h.2)]
        | succ f =>
          rw [drawLineLoop]
          simp only [hne, and_false, if_false, hstepy, if_true, hx, hyB,
            hnone f (by omega), Option.map_none']
      · rw [List.cons_append, List.chain'_cons']
        refine ⟨?_, hchain⟩
        intro q hq
        rw [hhead] at hq
        simp only [Option.mem_def, Option.some.injEq] at hq
        subst hq
        exact stepTowards_of_steps x2 y2 sx sy hsx hsy a a (b + 1) b
          (by omega) (by omega) (by omega) (by omega)
      · intro p hp
        rcases List.mem_cons.1 hp with rfl | hp
        · exact ⟨a, b + 1, le_refl _, le_refl _, rfl, hacc⟩
        · obtain ⟨a3, b3, ha3, hb3, hp3, hacc3⟩ := hmem p hp
          exact ⟨a3, b3, by omega, by omega, hp3, hacc3⟩

theorem c_abs_sign_mul (s d : Int) (hs : s = 1 ∨ s = -1) : c_abs (s * d) = c_abs d := by
  unfold c_abs
  rcases hs with rfl | rfl <;> split_ifs <;> omega

theorem drawLineCalls_run (x1 y1 x2 y2 : Int) :
    ∃ pts : List (Int × Int),
      (∀ fuel : Nat, max (c_abs (x2 - x1)) (c_abs (y2 - y1)) ≤ (fuel : Int) →
        drawLineCalls fuel x1 y1 x2 y2 = some pts) ∧
      (∀ fuel : Nat, (fuel : Int) < max (c_abs (x2 - x1)) (c_abs (y2 - y1)) →
        drawLineCalls fuel x1 y1 x2 y2 = none) ∧
      (pts.length : Int) = max (c_abs (x2 - x1)) (c_abs (y2 - y1)) ∧
      (pts ++ [(x2, y2)]).head? = some (x1, y1) ∧
      List.Chain' (stepTowards x2 y2) (pts ++ [(x2, y2)]) ∧
      ∀ p ∈ pts,
        min x1 x2 ≤ p.1 ∧ p.1 ≤ max x1 x2 ∧ min y1 y2 ≤ p.2 ∧ p.2 ≤ max y1 y2 ∧
        2 * c_abs ((p.2 - y1) * (x2 - x1) - (p.1 - x1) * (y2 - y1))
          ≤ max (c_abs (x2 - x1)) (c_abs (y2 - y1)) := by
  obtain ⟨sx, hsxdef⟩ : ∃ sx : Int, sx = if x1 < x2 then 1 else -1 := ⟨_, rfl⟩
  obtain ⟨sy, hsydef⟩ : ∃ sy : Int, sy = if y1 < y2 then 1 else -1 := ⟨_, rfl⟩
  obtain ⟨A, hAdef⟩ : ∃ A : Int, A = c_abs (x2 - x1) := ⟨_, rfl⟩
  obtain ⟨B, hBdef⟩ : ∃ B : Int, B = c_abs (y2 - y1) := ⟨_, rfl⟩
  have hsx : sx = 1 ∨ sx = -1 := by rw [hsxdef]; split_ifs <;> simp
  have hsy : sy = 1 ∨ sy = -1 := by rw [hsydef]; split_ifs <;> simp
  have hA0 : 0 ≤ A := by rw [hAdef]; unfold c_abs; split_ifs <;> omega
  have hB0 : 0 ≤ B := by rw [hBdef]; unfold c_abs; split_ifs <;> omega
  have hx1 : x2 - x1 = sx * A := by
    rw [hAdef, hsxdef]; unfold c_abs; split_ifs <;> omega
  have hy1 : y2 - y1 = sy * B := by
    rw [hBdef, hsydef]; unfold c_abs; split_ifs <;> omega
  have hAn : ((A.toNat : Nat) : Int) = A := Int.toNat_of_nonneg hA0
  have hBn : ((B.toNat : Nat) : Int) = B := Int.toNat_of_nonneg hB0
  have hx1n : x1 = x2 - sx * ((A.toNat : Nat) : Int) := by rw [hAn]; omega
  have hy1n : y1 = y2 - sy * ((B.toNat : Nat) : Int) := by rw [hBn]; omega
  have hcalls : ∀ fuel, drawLineCalls fuel x1 y1 x2 y2
      = drawLineLoop x2 y2 A B sx sy fuel (x2 - sx * ((A.toNat : Nat) : Int))
          (y2 - sy * ((B.toNat : Nat) : Int)) (A - B) := by
    intro fuel
    rw [← hx1n, ← hy1n, hAdef, hBdef, hsxdef, hsydef]
    rfl
  rw [← hAdef, ← hBdef]
  have hdev : ∀ (a2 b2 : Nat), c_abs (((y2 - sy * (b2 : Int)) - y1) * (x2 - x1)
        - ((x2 - sx * (a2 : Int)) - x1) * (y2 - y1))
      = c_abs ((a2 : Int) * B - (b2 : Int) * A) := by
    intro a2 b2
    have h : ((y2 - sy * (b2 : Int)) - y1) * (x2 - x1)
        - ((x2 - sx * (a2 : Int)) - x1) * (y2 - y1)
        = (sx * sy) * ((a2 : Int) * B - (b2 : Int) * A) := by
      have e1 : y2 - sy * (b2 : Int) - y1 = sy * B - sy * (b2 : Int) := by omega
      have e2 : x2 - sx * (a2 : Int) - x1 = sx * A - sx * (a2 : Int) := by omega
      rw [e1, e2, hx1, hy1]
      ring
    rw [h, mul_assoc, c_abs_sign_mul _ _ hsx, c_abs_sign_mul _ _ hsy]
  have hbox : ∀ (a2 b2 : Nat), a2 ≤ A.toNat → b2 ≤ B.toNat →
      min x1 x2 ≤ x2 - sx * (a2 : Int) ∧ x2 - sx * (a2 : Int) ≤ max x1 x2 ∧
      min y1 y2 ≤ y2 - sy * (b2 : Int) ∧ y2 - sy * (b2 : Int) ≤ max y1 y2 := by
    intro a2 b2 ha hb
    rcases hsx with rfl | rfl <;> rcases hsy with rfl | rfl <;> omega
  by_cases hmajor : B ≤ A
  · by_cases hA : 0 < A
    · obtain ⟨pts, hsome, hnone, hlen, hhead, hchain, hmem⟩ :=
        drawLineLoop_xmajor x2 y2 A B sx sy hsx hsy hA hB0 hmajor A.toNat B.toNat (A - B)
          (by rw [hAn, hBn]; ring) (by omega) (by omega) (by omega)
      refine ⟨pts, ?_, ?_, ?_, ?_, hchain, ?_⟩
      · intro fuel hf
        rw [hcalls]
        exact hsome fuel (by omega)
      · intro fuel hf
        rw [hcalls]
        exact hnone fuel (by omega)
      · rw [hlen]; omega
      · rw [hhead, ← hx1n, ← hy1n]
      · intro p hp
        obtain ⟨a2, b2, ha2, hb2, rfl, hl, hu⟩ := hmem p hp
        have hb := hbox a2 b2 ha2 hb2
        refine ⟨hb.1, hb.2.1, hb.2.2.1, hb.2.2.2, ?_⟩
        simp only
        rw [hdev]
        unfold c_abs
        split_ifs <;> omega
    · have hA00 : A = 0 := by omega
      have hB00 : B = 0 := by omega
      have hxe : x1 = x2 := by rw [hA00] at hx1; omega
      have hye : y1 = y2 := by rw [hB00] at hy1; omega
      subst hxe hye
      refine ⟨[], ?_, ?_, ?_, by simp, by simp, by simp⟩
      · intro fuel _
        unfold drawLineCalls
        cases fuel <;> simp [drawLineLoop]
      · intro fuel hf
        omega
      · simp; omega
  · obtain ⟨pts, hsome, hnone, hlen, hhead, hchain, hmem⟩ :=
      drawLineLoop_ymajor x2 y2 A B sx sy hsx hsy hA0 (by omega) B.toNat A.toNat (A - B)
        (by rw [hAn, hBn]; ring) (by omega) (by omega)
    refine ⟨pts, ?_, ?_, ?_, ?_, hchain, ?_⟩
    · intro fuel hf
      rw [hcalls]
      exact hsome fuel (by omega)
    · intro fuel hf
      rw [hcalls]
      exact hnone fuel (by omega)
    · rw [hlen]; omega
    · rw [hhead, ← hx1n, ← hy1n]
    · intro p hp
      obtain ⟨a2, b2, ha2, hb2, rfl, hl, hu⟩ := hmem p hp
      have hb := hbox a2 b2 ha2 hb2
      refine ⟨hb.1, hb.2.1, hb.2.2.1, hb.2.2.2, ?_⟩
      simp only
      rw [hdev]
      unfold c_abs
      split_ifs <;> omega

/-- C16. With fuel at least `max (|x2 - x1|, |y2 - y1|)` the loop of `drawLine`
returns, after exactly that many executions of its body (one `drawPixel` call
each; less fuel does not suffice). The current point goes from `(x1, y1)`
through the painted points to `(x2, y2)`, each step moving it by at most one in
x and in y and in neither coordinate away from `(x2, y2)`. -/
theorem drawLine_terminates (fuel : Nat) (x1 y1 x2 y2 : Int)
    (hf : max (c_abs (x2 - x1)) (c_abs (y2 - y1)) ≤ (fuel : Int)) :
    ∃ pts : List (Int × Int),
      drawLineCalls fuel x1 y1 x2 y2 = some pts ∧
      (∀ (img : Image) (c : Int), drawLine fuel img x1 y1 x2 y2 c = some (drawPixels img pts c)) ∧
      (pts.length : Int) = max (c_abs (x2 - x1)) (c_abs (y2 - y1)) ∧
      (∀ fuel2 : Nat, (fuel2 : Int) < max (c_abs (x2 - x1)) (c_abs (y2 - y1)) →
        drawLineCalls fuel2 x1 y1 x2 y2 = none) ∧
      (pts ++ [(x2, y2)]).head? = some (x1, y1) ∧
      List.Chain' (stepTowards x2 y2) (pts ++ [(x2, y2)]) := by
  obtain ⟨pts, hsome, hnone, hlen, hhead, hchain, -⟩ := drawLineCalls_run x1 y1 x2 y2
  exact ⟨pts, hsome fuel hf, fun img c => drawLine_some fuel img x1 y1 x2 y2 c pts (hsome fuel hf),
    hlen, hnone, hhead, hchain⟩

theorem drawLine_terminates_witness :
    ∃ pts : List (Int × Int),
      drawLineCalls 7 0 0 7 3 = some pts ∧
      (∀ (img : Image) (c : Int), drawLine 7 img 0 0 7 3 c = some (drawPixels img pts c)) ∧
      (pts.length : Int) = max (c_abs (7 - 0)) (c_abs (3 - 0)) ∧
      (∀ fuel2 : Nat, (fuel2 : Int) < max (c_abs (7 - 0)) (c_abs (3 - 0)) →
        drawLineCalls fuel2 0 0 7 3 = none) ∧
      (pts ++ [(7, 3)]).head? = some (0, 0) ∧
      List.Chain' (stepTowards 7 3) (pts ++ [(7, 3)]) :=
  drawLine_terminates 7 0 0 7 3 (by decide)

/-- C20. With enough fuel `drawLine` returns, and every point `(x, y)` it passes
to `drawPixel` lies in the bounding box of the endpoints and satisfies
`2 * |(y - y1) * (x2 - x1) - (x - x1) * (y2 - y1)| ≤ max (|x2 - x1|, |y2 - y1|)`. -/
theorem drawLine_accuracy (fuel : Nat) (x1 y1 x2 y2 : Int)
    (hf : max (c_abs (x2 - x1)) (c_abs (y2 - y1)) ≤ (fuel : Int)) :
    ∃ pts : List (Int × Int),
      drawLineCalls fuel x1 y1 x2 y2 = some pts ∧
      ∀ p ∈ pts,
        min x1 x2 ≤ p.1 ∧ p.1 ≤ max x1 x2 ∧ min y1 y2 ≤ p.2 ∧ p.2 ≤ max y1 y2 ∧
        2 * c_abs ((p.2 - y1) * (x2 - x1) - (p.1 - x1) * (y2 - y1))
          ≤ max (c_abs (x2 - x1)) (c_abs (y2 - y1)) := by
  obtain ⟨pts, hsome, -, -, -, -, hacc⟩ := drawLineCalls_run x1 y1 x2 y2
  exact ⟨pts, hsome fuel hf, hacc⟩

theorem drawLine_accuracy_witness :
    ∃ pts : List (Int × Int),
      drawLineCalls 40 50 40 10 3 = some pts ∧
      ∀ p ∈ pts,
        min 50 10 ≤ p.1 ∧ p.1 ≤ max 50 10 ∧ min 40 3 ≤ p.2 ∧ p.2 ≤ max 40 3 ∧
        2 * c_abs ((p.2 - 40) * (10 - 50) - (p.1 - 50) * (3 - 40))
          ≤ max (c_abs (10 - 50)) (c_abs (3 - 40)) :=
  drawLine_accuracy 40 50 40 10 3 (by decide)

/-! ## Rasterizer: circles -/

theorem mem_octants (cx cy a b u v : Int) :
    (u, v) ∈ [(cx + a, cy + b), (cx - a, cy - b), (cx + a, cy - b), (cx - a, cy + b),
              (cx + b, cy + a), (cx - b, cy - a), (cx + b, cy - a), (cx - b, cy + a)] ↔
      ((u = cx + a ∨ u = cx - a) ∧ (v = cy + b ∨ v = cy - b)) ∨
      ((u = cx + b ∨ u = cx - b) ∧ (v = cy + a ∨ v = cy - a)) := by
  simp only [List.mem_cons, List.mem_singleton, Prod.mk.injEq, List.not_mem_nil, or_false]
  tauto

theorem Sym8_octants (cx cy a b : Int) :
    Sym8 cx cy [(cx + a, cy + b), (cx - a, cy - b), (cx + a, cy - b), (cx - a, cy + b),
                (cx + b, cy + a), (cx - b, cy - a), (cx + b, cy - a), (cx - b, cy + a)] := by
  intro dx dy h
  simp only [mem_octants] at h ⊢
  refine ⟨?_, ?_, ?_, ?_, ?_, ?_, ?_⟩ <;> omega

theorem Sym8_append (cx cy : Int) (l1 l2 : List (Int × Int))
    (h1 : Sym8 cx cy l1) (h2 : Sym8 cx cy l2) : Sym8 cx cy (l1 ++ l2) := by
  intro dx dy h
  simp only [List.mem_append] at h ⊢
  rcases h with h | h
  · obtain ⟨a1, a2, a3, a4, a5, a6, a7⟩ := h1 dx dy h
    exact ⟨Or.inl a1, Or.inl a2, Or.inl a3, Or.inl a4, Or.inl a5, Or.inl a6, Or.inl a7⟩
  · obtain ⟨a1, a2, a3, a4, a5, a6, a7⟩ := h2 dx dy h
    exact ⟨Or.inr a1, Or.inr a2, Or.inr a3, Or.inr a4, Or.inr a5, Or.inr a6, Or.inr a7⟩

theorem Sym8_extrema (cx cy r : Int) :
    Sym8 cx cy [(cx, cy + r), (cx, cy - r), (cx + r, cy), (cx - r, cy)] := by
  intro dx dy h
  simp only [List.mem_cons, List.mem_singleton, Prod.mk.injEq, List.not_mem_nil, or_false] at h ⊢
  refine ⟨?_, ?_, ?_, ?_, ?_, ?_, ?_⟩ <;> omega

theorem drawCircleLoop_spec (cx cy r : Int) (fuel : Nat) :
    ∀ (err ddfx ddfy x0 y0 : Int), 0 ≤ x0 → y0 ≤ r → y0 - x0 ≤ (fuel : Int) →
      ∃ l, drawCircleLoop cx cy fuel err ddfx ddfy x0 y0 = some l ∧
        (∀ p ∈ l, cx - r ≤ p.1 ∧ p.1 ≤ cx + r ∧ cy - r ≤ p.2 ∧ p.2 ≤ cy + r) ∧
        Sym8 cx cy l := by
  induction fuel with
  | zero =>
    intro err ddfx ddfy x0 y0 _ _ hf
    have hn : ¬ (x0 < y0) := by push_cast at hf; omega
    refine ⟨[], by simp [drawCircleLoop, hn], by simp, ?_⟩
    intro dx dy h; simp at h
  | succ f ih =>
    intro err ddfx ddfy x0 y0 hx0 hy0 hf
    by_cases hlt : x0 < y0
    · rw [drawCircleLoop, if_pos hlt]
      have hyA : (if err ≥ 0 then y0 - 1 else y0) = y0 ∨ (if err ≥ 0 then y0 - 1 else y0) = y0 - 1 := by
        split_ifs
        · exact Or.inr rfl
        · exact Or.inl rfl
      generalize (if err ≥ 0 then y0 - 1 else y0) = y0A at hyA
      obtain ⟨l, hl, hbox, hsym⟩ := ih
        ((if err ≥ 0 then err + (if err ≥ 0 then ddfy + 2 else ddfy) else err) + (ddfx + 2))
        (ddfx + 2) (if err ≥ 0 then ddfy + 2 else ddfy) (x0 + 1) y0A
        (by omega) (by omega) (by push_cast at hf; omega)
      simp only [hl, Option.map_some']
      refine ⟨_, rfl, ?_, ?_⟩
      · intro p hp
        rw [List.mem_append] at hp
        rcases hp with hp | hp
        · obtain ⟨u, v⟩ := p
          rw [mem_octants] at hp
          simp only
          omega
        · exact hbox p hp
      · exact Sym8_append _ _ _ _ (Sym8_octants cx cy (x0 + 1) y0A) hsym
    · refine ⟨[], by simp [drawCircleLoop, hlt], by simp, ?_⟩
      intro dx dy h; simp at h

theorem lit_drawPixels_clear (img : Image) (pts : List (Int × Int))
    (hpts : ∀ p ∈ pts, 0 ≤ p.1 ∧ p.1 ≤ 62 ∧ 0 ≤ p.2 ∧ p.2 ≤ 47) (i j : Int) :
    lit (drawPixels (clearScreen img) pts 1) i j ↔ (i, j) ∈ pts := by
  unfold lit
  constructor
  · rintro ⟨hi0, hi, hj0, hj, hb⟩
    rw [pixelBit_drawPixels_on pts _ i j hpts hi0 hi, pixelBit_clearScreen img i j hi0 hi hj0 hj] at hb
    simpa using hb
  · intro hm
    have hb := hpts (i, j) hm
    simp only at hb
    refine ⟨by omega, by omega, by omega, by omega, ?_⟩
    rw [pixelBit_drawPixels_on pts _ i j hpts (by omega) (by omega)]
    exact Or.inr hm

/-- C6. For a centre `(cx, cy)` and radius `r ≥ 0` whose circle lies in the
drawable area (`0 ≤ cx - r`, `cx + r ≤ 62`, `0 ≤ cy - r`, `cy + r ≤ 47`),
`drawCircle (cx, cy, r, 1)` on a cleared buffer returns (fuel `r` is enough for
its loop), the four extrema `(cx ± r, cy)`, `(cx, cy ± r)` are lit, and with
every lit pixel `(cx + dx, cy + dy)` its seven reflections `(cx ± dx, cy ± dy)`,
`(cx ± dy, cy ± dx)` are lit. -/
theorem drawCircle_symmetry (fuel : Nat) (img : Image) (cx cy r : Int)
    (hr : 0 ≤ r) (h1 : 0 ≤ cx - r) (h2 : cx + r ≤ 62) (h3 : 0 ≤ cy - r) (h4 : cy + r ≤ 47)
    (hf : r ≤ (fuel : Int)) :
    ∃ img2, drawCircle fuel (clearScreen img) cx cy r 1 = some img2 ∧
      lit img2 (cx + r) cy ∧ lit img2 (cx - r) cy ∧
      lit img2 cx (cy + r) ∧ lit img2 cx (cy - r) ∧
      ∀ dx dy, lit img2 (cx + dx) (cy + dy) →
        lit img2 (cx - dx) (cy + dy) ∧ lit img2 (cx + dx) (cy - dy) ∧
        lit img2 (cx - dx) (cy - dy) ∧
        lit img2 (cx + dy) (cy + dx) ∧ lit img2 (cx - dy) (cy + dx) ∧
        lit img2 (cx + dy) (cy - dx) ∧ lit img2 (cx - dy) (cy - dx) := by
  obtain ⟨l, hl, hbox, hsym⟩ := drawCircleLoop_spec cx cy r fuel (1 - r) 1 (-2 * r) 0 r
    (le_refl 0) (le_refl r) (by omega)
  have hcalls : drawCircleCalls fuel cx cy r
      = some ([(cx, cy + r), (cx, cy - r), (cx + r, cy), (cx - r, cy)] ++ l) := by
    unfold drawCircleCalls
    rw [hl]
    rfl
  have hpts : ∀ p ∈ [(cx, cy + r), (cx, cy - r), (cx + r, cy), (cx - r, cy)] ++ l,
      0 ≤ p.1 ∧ p.1 ≤ 62 ∧ 0 ≤ p.2 ∧ p.2 ≤ 47 := by
    intro p hp
    rw [List.mem_append] at hp
    rcases hp with hp | hp
    · obtain ⟨u, v⟩ := p
      simp only [List.mem_cons, List.mem_singleton, Prod.mk.injEq, List.not_mem_nil,
        or_false] at hp
      simp only
      omega
    · have := hbox p hp
      omega
  have hS : Sym8 cx cy ([(cx, cy + r), (cx, cy - r), (cx + r, cy), (cx - r, cy)] ++ l) :=
    Sym8_append _ _ _ _ (Sym8_extrema cx cy r) hsym
  have hres : drawCircle fuel (clearScreen img) cx cy r 1 = some (drawPixels (clearScreen img)
      ([(cx, cy + r), (cx, cy - r), (cx + r, cy), (cx - r, cy)] ++ l) 1) := by
    unfold drawCircle
    rw [hcalls]
    rfl
  refine ⟨_, hres, ?_, ?_, ?_, ?_, ?_⟩
  · rw [lit_drawPixels_clear img _ hpts]; simp
  · rw [lit_drawPixels_clear img _ hpts]; simp
  · rw [lit_drawPixels_clear img _ hpts]; simp
  · rw [lit_drawPixels_clear img _ hpts]; simp
  · intro dx dy h
    simp only [lit_drawPixels_clear img _ hpts] at h ⊢
    exact hS dx dy h

theorem drawCircle_symmetry_witness :
    ∃ img2, drawCircle 10 (clearScreen blank) 30 24 10 1 = some img2 ∧
      lit img2 (30 + 10) 24 ∧ lit img2 (30 - 10) 24 ∧
      lit img2 30 (24 + 10) ∧ lit img2 30 (24 - 10) ∧
      ∀ dx dy, lit img2 (30 + dx) (24 + dy) →
        lit img2 (30 - dx) (24 + dy) ∧ lit img2 (30 + dx) (24 - dy) ∧
        lit img2 (30 - dx) (24 - dy) ∧
        lit img2 (30 + dy) (24 + dx) ∧ lit img2 (30 - dy) (24 + dx) ∧
        lit img2 (30 + dy) (24 - dx) ∧ lit img2 (30 - dy) (24 - dx) :=
  drawCircle_symmetry 10 blank 30 24 10 (by decide) (by decide) (by decide) (by decide)
    (by decide) (by decide)

theorem octant_norm (cx cy a b u v : Int)
    (h : ((u = cx + a ∨ u = cx - a) ∧ (v = cy + b ∨ v = cy - b)) ∨
      ((u = cx + b ∨ u = cx - b) ∧ (v = cy + a ∨ v = cy - a))) :
    (u - cx) * (u - cx) + (v - cy) * (v - cy) = a * a + b * b := by
  rcases h with ⟨rfl | rfl, rfl | rfl⟩ | ⟨rfl | rfl, rfl | rfl⟩ <;> ring

theorem drawCircleLoop_accuracy (cx cy r : Int) (fuel : Nat) :
    ∀ (err ddfx ddfy x0 y0 : Int) (l : List (Int × Int)),
      0 ≤ x0 → y0 ≤ r →
      -r ≤ x0 * x0 + y0 * y0 - r * r → x0 * x0 + y0 * y0 - r * r ≤ r →
      ddfx = 2 * x0 + 1 → ddfy = -2 * y0 →
      err = x0 * x0 + y0 * y0 - r * r + 2 * x0 - y0 + 1 →
      drawCircleLoop cx cy fuel err ddfx ddfy x0 y0 = some l →
      ∀ p ∈ l, -r ≤ (p.1 - cx) * (p.1 - cx) + (p.2 - cy) * (p.2 - cy) - r * r ∧
        (p.1 - cx) * (p.1 - cx) + (p.2 - cy) * (p.2 - cy) - r * r ≤ r := by
  induction fuel with
  | zero =>
    intro err ddfx ddfy x0 y0 l _ _ _ _ _ _ _ h p hp
    rw [drawCircleLoop] at h
    split_ifs at h
    simp only [Option.some.injEq] at h
    subst h
    simp at hp
  | succ f ih =>
    intro err ddfx ddfy x0 y0 l hx0 hy0 hlo hhi hddfx hddfy herr h p hp
    rw [drawCircleLoop] at h
    by_cases hlt : x0 < y0
    · rw [if_pos hlt] at h
      by_cases he : err ≥ 0
      · simp only [he, if_true, Option.map_eq_some'] at h
        obtain ⟨l2, hl2, rfl⟩ := h
        have hlo2 : -r ≤ (x0 + 1) * (x0 + 1) + (y0 - 1) * (y0 - 1) - r * r := by nlinarith
        have hhi2 : (x0 + 1) * (x0 + 1) + (y0 - 1) * (y0 - 1) - r * r ≤ r := by nlinarith
        rw [List.mem_append] at hp
        rcases hp with hp | hp
        · obtain ⟨u, v⟩ := p
          rw [mem_octants] at hp
          simp only
          rw [octant_norm cx cy (x0 + 1) (y0 - 1) u v hp]
          exact ⟨hlo2, hhi2⟩
        · exact ih _ _ _ _ _ l2 (by omega) (by omega) hlo2 hhi2 (by omega) (by omega)
            (by rw [herr, hddfx, hddfy]; ring) hl2 p hp
      · simp only [he, if_false, Option.map_eq_some'] at h
        obtain ⟨l2, hl2, rfl⟩ := h
        have hlo2 : -r ≤ (x0 + 1) * (x0 + 1) + y0 * y0 - r * r := by nlinarith
        have hhi2 : (x0 + 1) * (x0 + 1) + y0 * y0 - r * r ≤ r := by nlinarith
        rw [List.mem_append] at hp
        rcases hp with hp | hp
        · obtain ⟨u, v⟩ := p
          rw [mem_octants] at hp
          simp only
          rw [octant_norm cx cy (x0 + 1) y0 u v hp]
          exact ⟨hlo2, hhi2⟩
        · exact ih _ _ _ _ _ l2 (by omega) (by omega) hlo2 hhi2 (by omega) (by omega)
            (by rw [herr, hddfx]; ring) hl2 p hp
    · rw [if_neg hlt] at h
      simp only [Option.some.injEq] at h
      subst h
      simp at hp

theorem drawCircleLoop_body (x y : Int) (fuel : Nat) (v : CircleVars) :
    drawCircleLoop x y (fuel + 1) v.err v.ddfx v.ddfy v.x0 v.y0 =
      if v.x0 < v.y0 then
        (drawCircleLoop x y fuel (drawCircleBody v).err (drawCircleBody v).ddfx
          (drawCircleBody v).ddfy (drawCircleBody v).x0 (drawCircleBody v).y0).map (fun l =>
          [(x + (drawCircleBody v).x0, y + (drawCircleBody v).y0),
           (x - (drawCircleBody v).x0, y - (drawCircleBody v).y0),
           (x + (drawCircleBody v).x0, y - (drawCircleBody v).y0),
           (x - (drawCircleBody v).x0, y + (drawCircleBody v).y0),
           (x + (drawCircleBody v).y0, y + (drawCircleBody v).x0),
           (x - (drawCircleBody v).y0, y - (drawCircleBody v).x0),
           (x + (drawCircleBody v).y0, y - (drawCircleBody v).x0),
           (x - (drawCircleBody v).y0, y + (drawCircleBody v).x0)] ++ l)
      else some [] := by
  rw [drawCircleLoop]
  rfl

theorem drawCircleBody_inv (r : Int) (v : CircleVars)
    (h1 : v.ddfx = 2 * v.x0 + 1) (h2 : v.ddfy = -2 * v.y0)
    (h3 : v.err = v.x0 * v.x0 + v.y0 * v.y0 - r * r + 2 * v.x0 - v.y0 + 1) :
    (drawCircleBody v).ddfx = 2 * (drawCircleBody v).x0 + 1 ∧
    (drawCircleBody v).ddfy = -2 * (drawCircleBody v).y0 ∧
    (drawCircleBody v).err = (drawCircleBody v).x0 * (drawCircleBody v).x0
      + (drawCircleBody v).y0 * (drawCircleBody v).y0 - r * r
      + 2 * (drawCircleBody v).x0 - (drawCircleBody v).y0 + 1 := by
  unfold drawCircleBody
  by_cases he : v.err ≥ 0
  · simp only [he, if_true]
    refine ⟨by omega, by omega, ?_⟩
    rw [h3, h1, h2]; ring
  · simp only [he, if_false]
    refine ⟨by omega, by omega, ?_⟩
    rw [h3, h1]; ring

theorem drawCircleVars_inv (r : Int) (n : Nat) :
    (drawCircleVars r n).ddfx = 2 * (drawCircleVars r n).x0 + 1 ∧
    (drawCircleVars r n).ddfy = -2 * (drawCircleVars r n).y0 ∧
    (drawCircleVars r n).err = (drawCircleVars r n).x0 * (drawCircleVars r n).x0
      + (drawCircleVars r n).y0 * (drawCircleVars r n).y0 - r * r
      + 2 * (drawCircleVars r n).x0 - (drawCircleVars r n).y0 + 1 := by
  induction n with
  | zero =>
    simp only [drawCircleVars]
    refine ⟨by norm_num, by norm_num, by ring⟩
  | succ n ih =>
    rw [drawCircleVars]
    split_ifs
    · exact drawCircleBody_inv r _ ih.1 ih.2.1 ih.2.2
    · exact ih

/-- C19. For `r ≥ 0` and fuel at least `r`, `drawCircle` returns and every point
`(cx + dx, cy + dy)` it passes to `drawPixel` has
`-r ≤ dx * dx + dy * dy - r * r ≤ r`; the loop variables satisfy
`ddfx = 2 * x0 + 1`, `ddfy = -2 * y0` and
`err = x0 * x0 + y0 * y0 - r * r + 2 * x0 - y0 + 1` at every test of the loop
condition. -/
theorem drawCircle_accuracy (fuel : Nat) (cx cy r : Int) (hr : 0 ≤ r)
    (hf : r ≤ (fuel : Int)) :
    ∃ pts : List (Int × Int),
      drawCircleCalls fuel cx cy r = some pts ∧
      (∀ p ∈ pts, -r ≤ (p.1 - cx) * (p.1 - cx) + (p.2 - cy) * (p.2 - cy) - r * r ∧
        (p.1 - cx) * (p.1 - cx) + (p.2 - cy) * (p.2 - cy) - r * r ≤ r) ∧
      ∀ n, (drawCircleVars r n).ddfx = 2 * (drawCircleVars r n).x0 + 1 ∧
        (drawCircleVars r n).ddfy = -2 * (drawCircleVars r n).y0 ∧
        (drawCircleVars r n).err = (drawCircleVars r n).x0 * (drawCircleVars r n).x0
          + (drawCircleVars r n).y0 * (drawCircleVars r n).y0 - r * r
          + 2 * (drawCircleVars r n).x0 - (drawCircleVars r n).y0 + 1 := by
  obtain ⟨l, hl, -, -⟩ := drawCircleLoop_spec cx cy r fuel (1 - r) 1 (-2 * r) 0 r
    (le_refl 0) (le_refl r) (by omega)
  have hacc := drawCircleLoop_accuracy cx cy r fuel (1 - r) 1 (-2 * r) 0 r l
    (le_refl 0) (le_refl r) (by nlinarith) (by nlinarith) (by ring) (by ring) (by ring) hl
  refine ⟨[(cx, cy + r), (cx, cy - r), (cx + r, cy), (cx - r, cy)] ++ l, ?_, ?_,
    drawCircleVars_inv r⟩
  · unfold drawCircleCalls
    rw [hl]
    rfl
  · intro p hp
    rw [List.mem_append] at hp
    rcases hp with hp | hp
    · simp only [List.mem_cons, List.mem_singleton, List.not_mem_nil, or_false] at hp
      rcases hp with rfl | rfl | rfl | rfl <;> simp only <;> constructor <;> nlinarith
    · exact hacc p hp

theorem drawCircle_accuracy_witness :
    ∃ pts : List (Int × Int),
      drawCircleCalls 10 30 24 10 = some pts ∧
      (∀ p ∈ pts, -10 ≤ (p.1 - 30) * (p.1 - 30) + (p.2 - 24) * (p.2 - 24) - 10 * 10 ∧
        (p.1 - 30) * (p.1 - 30) + (p.2 - 24) * (p.2 - 24) - 10 * 10 ≤ 10) ∧
      ∀ n, (drawCircleVars 10 n).ddfx = 2 * (drawCircleVars 10 n).x0 + 1 ∧
        (drawCircleVars 10 n).ddfy = -2 * (drawCircleVars 10 n).y0 ∧
        (drawCircleVars 10 n).err = (drawCircleVars 10 n).x0 * (drawCircleVars 10 n).x0
          + (drawCircleVars 10 n).y0 * (drawCircleVars 10 n).y0 - 10 * 10
          + 2 * (drawCircleVars 10 n).x0 - (drawCircleVars 10 n).y0 + 1 :=
  drawCircle_accuracy 10 30 24 10 (by decide) (by decide)

/-! ## Timing: proofs -/

set_option maxRecDepth 100000 in
theorem TA1CCR0_ISR_frameState :
    ∀ m, m < 261 → TA1CCR0_ISR (frameState m) = frameState ((m + 1) % 261) := by
  decide

theorem ticks_reset (n : Nat) : ticks n reset = frameState (n % 261) := by
  induction n with
  | zero => rfl
  | succ k ih =>
    have hk : k % 261 < 261 := Nat.mod_lt _ (by decide)
    rw [ticks, ih, TA1CCR0_ISR_frameState _ hk, Nat.add_mod, Nat.mod_mod]
    simp

theorem frameStates_reset (n : Nat) :
    frameStates n reset = (List.range n).map (fun k => frameState ((k + 1) % 261)) := by
  unfold frameStates
  exact List.map_congr_left (fun k _ => ticks_reset (k + 1))

set_option maxRecDepth 100000 in
theorem enabledLines_eq : enabledLines = (List.range 192).map (fun k => k + 29) := by
  unfold enabledLines
  rw [frameStates_reset]
  decide

/-- C7. From the reset state, after the `n`-th tick (`1 ≤ n ≤ 261`) the
serializer trigger is enabled iff `29 ≤ n ≤ 220`, and the sync pulse width
`TA1CCR1` is `VSYNC` iff `n` is 247 or 248 and `HSYNC` otherwise; the enabled
ticks of the frame are 192 in number. -/
theorem timing_windows (n : Nat) (h1 : 1 ≤ n) (h2 : n ≤ 261) :
    (serializerEnabled (ticks n reset) = true ↔ 29 ≤ n ∧ n ≤ 220) ∧
    ((ticks n reset).TA1CCR1 = VSYNC ↔ n = 247 ∨ n = 248) ∧
    (¬ (n = 247 ∨ n = 248) → (ticks n reset).TA1CCR1 = HSYNC) ∧
    ((frameStates 261 reset).filter serializerEnabled).length = 192 := by
  have hlen : ((frameStates 261 reset).filter serializerEnabled).length = 192 := by
    have h := congrArg List.length enabledLines_eq
    simpa [enabledLines] using h
  rw [ticks_reset]
  rcases Nat.lt_or_ge n 261 with hlt | hge
  · rw [Nat.mod_eq_of_lt hlt]
    refine ⟨?_, ?_, ?_, hlen⟩
    · unfold serializerEnabled frameState
      by_cases h : 29 ≤ n ∧ n ≤ 220
      · simp [h, CCIE]
      · simp [h]
    · unfold frameState
      by_cases h : 247 ≤ n ∧ n ≤ 248
      · simp only [h, and_self, if_true, true_iff]; omega
      · simp only [h, if_false, VSYNC, HSYNC]
        constructor
        · intro h'; exact absurd h' (by decide)
        · intro h'; omega
    · intro h
      unfold frameState
      have : ¬ (247 ≤ n ∧ n ≤ 248) := by omega
      simp [this]
  · have hn : n = 261 := by omega
    subst hn
    refine ⟨by decide, by decide, by decide, hlen⟩

theorem timing_windows_witness :
    (serializerEnabled (ticks 29 reset) = true ↔ 29 ≤ 29 ∧ 29 ≤ 220) ∧
    ((ticks 29 reset).TA1CCR1 = VSYNC ↔ 29 = 247 ∨ 29 = 248) ∧
    (¬ (29 = 247 ∨ 29 = 248) → (ticks 29 reset).TA1CCR1 = HSYNC) ∧
    ((frameStates 261 reset).filter serializerEnabled).length = 192 :=
  timing_windows 29 (by decide) (by decide)

/-- C8. After `n` ticks from the reset state the line counter is `n mod 261`;
it lies in `[0, 260]` and is 0 exactly when `n` is a multiple of 261. -/
theorem line_counter_mod (n : Nat) :
    (ticks n reset).line = n % 261 ∧ (ticks n reset).line ≤ 260 ∧
    ((ticks n reset).line = 0 ↔ 261 ∣ n) := by
  rw [ticks_reset]
  have h : (frameState (n % 261)).line = n % 261 := rfl
  rw [h]
  refine ⟨rfl, ?_, ?_⟩
  · omega
  · omega

/-- C9. For a line `L` of the active window `29 .. 220` the row index computed
by the serializer is at most 47, it is 0 at line 29 and 47 at line 220, and it
does not decrease from `L` to any later line of the window. -/
theorem rowIndex_active (L : Nat) (h1 : 29 ≤ L) (h2 : L ≤ 220) :
    rowIndex L ≤ 47 ∧ rowIndex 29 = 0 ∧ rowIndex 220 = 47 ∧
    ∀ L2, L ≤ L2 → L2 ≤ 220 → rowIndex L ≤ rowIndex L2 := by
  refine ⟨?_, by decide, by decide, ?_⟩
  · unfold rowIndex; omega
  · intro L2 h3 h4
    unfold rowIndex; omega

theorem rowIndex_active_witness :
    rowIndex 100 ≤ 47 ∧ rowIndex 29 = 0 ∧ rowIndex 220 = 47 ∧
    ∀ L2, 100 ≤ L2 → L2 ≤ 220 → rowIndex 100 ≤ rowIndex L2 :=
  rowIndex_active 100 (by decide) (by decide)

set_option maxRecDepth 100000 in
theorem enabledLines_rows :
    ((List.range 192).map (fun k => k + 29)).Nodup ∧
    (∀ r, r < 48 →
      (((List.range 192).map (fun k => k + 29)).filter (fun l => rowIndex l = r)).length = 4) ∧
    ∀ l ∈ (List.range 192).map (fun k => k + 29), rowIndex l < 48 := by
  decide

/-- C10. Over one frame of 261 ticks from reset the lines at which the
serializer trigger is enabled are pairwise distinct, exactly 4 of them have
row index `r` for each row `r` in `0 .. 47`, and none has a row index outside
`0 .. 47`. -/
theorem rows_scanned_four_times (r : Nat) (hr : r < 48) :
    enabledLines.Nodup ∧
    (enabledLines.filter (fun l => rowIndex l = r)).length = 4 ∧
    ∀ l ∈ enabledLines, rowIndex l < 48 := by
  rw [enabledLines_eq]
  exact ⟨enabledLines_rows.1, enabledLines_rows.2.1 r hr, enabledLines_rows.2.2⟩

theorem rows_scanned_four_times_witness :
    enabledLines.Nodup ∧
    (enabledLines.filter (fun l => rowIndex l = 47)).length = 4 ∧
    ∀ l ∈ enabledLines, rowIndex l < 48 :=
  rows_scanned_four_times 47 (by decide)

/-- C15, counterexample. From reset, after the first tick the line counter is 1
and the low-power request is not active; after the 25th tick the line counter
is 25 and the low-power request is active. -/
theorem lpm0_lines_1_and_25 : (ticks 1 reset).line = 1 ∧ (ticks 1 reset).lpm0 = false ∧
    (ticks 25 reset).line = 25 ∧ (ticks 25 reset).lpm0 = true := by decide

/-- C15, amended. After any number of ticks from reset the low-power request
(LPM0 bits set on exit of the handler) is active exactly when the line counter
is in `25 .. 220`: the handler requests it on entering line 25 and releases it
on entering line 221. -/
theorem lpm0_window (n : Nat) :
    ((ticks n reset).lpm0 = true ↔ 25 ≤ (ticks n reset).line ∧ (ticks n reset).line ≤ 220) := by
  rw [ticks_reset]
  simp [frameState]

end Mspvideo
